import Mathlib

/-!
# Verification of the fast-greedy-bpe-tokenizer core

Shallow embedding of `bpe_tokenizer.py` (class `BPETokenizer`).

* Python strings are modelled as `List Char` (`Sym`).
* Python dicts are modelled as insertion-ordered association lists; assignment
  `d[k] = v` is `dictSet` (update in place if the key exists, else append),
  which is exactly CPython's dict semantics for iteration order.
* Integer token IDs are `Int` (the reserved IDs are negative).
* Fallible operations (Python `raise` / uncaught `KeyError`) return `Option`
  or `Except`.
-/

set_option maxHeartbeats 1000000

/-- A Python string: a list of characters. -/
abbrev Str := List Char

/-- A vocabulary: a Python dict mapping symbol strings to integer frequencies,
modelled as an insertion-ordered association list. -/
abbrev Vocab := List (Str × Nat)

/-- Python dict assignment `d[k] = v`: if `k` is already a key, its value is
replaced in place (keeping its position); otherwise `(k, v)` is appended. -/
def dictSet {α β : Type} [DecidableEq α] : List (α × β) → α → β → List (α × β)
  | [], k, v => [(k, v)]
  | (k', v') :: rest, k, v =>
    if k' = k then (k, v) :: rest else (k', v') :: dictSet rest k v

/-- Python dict lookup `d[k]` / `d.get(k)`: the value of the first entry with
key `k`, if any. -/
def alookup {α β : Type} [DecidableEq α] : List (α × β) → α → Option β
  | [], _ => none
  | (k', v') :: rest, k => if k' = k then some v' else alookup rest k

/-- The keys of a dict, in order. -/
def dkeys {α β : Type} (d : List (α × β)) : List α := d.map Prod.fst

@[simp] theorem alookup_nil {α β : Type} [DecidableEq α] (k : α) :
    alookup ([] : List (α × β)) k = none := rfl

@[simp] theorem alookup_cons {α β : Type} [DecidableEq α] (k' : α) (v' : β) (rest : List (α × β)) (k : α) :
    alookup ((k', v') :: rest) k = if k' = k then some v' else alookup rest k := rfl

@[simp] theorem dictSet_nil {α β : Type} [DecidableEq α] (k : α) (v : β) :
    dictSet ([] : List (α × β)) k v = [(k, v)] := rfl

@[simp] theorem dictSet_cons {α β : Type} [DecidableEq α] (k' : α) (v' : β) (rest : List (α × β)) (k : α) (v : β) :
    dictSet ((k', v') :: rest) k v =
      if k' = k then (k, v) :: rest else (k', v') :: dictSet rest k v := rfl

@[simp] theorem dkeys_nil {α β : Type} : dkeys ([] : List (α × β)) = [] := rfl

@[simp] theorem dkeys_cons {α β : Type} (p : α × β) (rest : List (α × β)) :
    dkeys (p :: rest) = p.1 :: dkeys rest := rfl

theorem alookup_eq_none_iff {α β : Type} [DecidableEq α] (d : List (α × β)) (k : α) :
    alookup d k = none ↔ k ∉ dkeys d := by
  induction d with
  | nil => simp
  | cons p rest ih =>
    obtain ⟨k', v'⟩ := p
    by_cases h : k' = k
    · subst h; simp
    · have hne : k ≠ k' := fun hh => h hh.symm
      simp [h, ih, hne]

theorem alookup_isSome_iff {α β : Type} [DecidableEq α] (d : List (α × β)) (k : α) :
    (alookup d k).isSome = true ↔ k ∈ dkeys d := by
  rw [← Decidable.not_iff_not, ← alookup_eq_none_iff (d := d) (k := k)]
  cases alookup d k <;> simp

/-- `dictSet` on a fresh key appends the new entry. -/
theorem dictSet_eq_append {α β : Type} [DecidableEq α] (d : List (α × β)) (k : α) (v : β)
    (h : k ∉ dkeys d) : dictSet d k v = d ++ [(k, v)] := by
  induction d with
  | nil => rfl
  | cons p rest ih =>
    obtain ⟨k', v'⟩ := p
    simp only [dkeys_cons, List.mem_cons] at h
    push_neg at h
    simp [Ne.symm h.1, ih h.2]

theorem alookup_dictSet_self {α β : Type} [DecidableEq α] (d : List (α × β)) (k : α) (v : β) :
    alookup (dictSet d k v) k = some v := by
  induction d with
  | nil => simp
  | cons p rest ih =>
    obtain ⟨k', v'⟩ := p
    by_cases h : k' = k <;> simp [h, ih]

theorem alookup_dictSet_ne {α β : Type} [DecidableEq α] (d : List (α × β)) (k k' : α) (v : β)
    (h : k ≠ k') : alookup (dictSet d k v) k' = alookup d k' := by
  induction d with
  | nil => simp [h]
  | cons p rest ih =>
    obtain ⟨k₀, v₀⟩ := p
    by_cases h₀ : k₀ = k
    · subst h₀; simp [h]
    · simp only [dictSet_cons, if_neg h₀, alookup_cons]
      by_cases h₁ : k₀ = k' <;> simp [h₁, ih]

theorem dkeys_dictSet_of_mem {α β : Type} [DecidableEq α] (d : List (α × β)) (k : α) (v : β)
    (h : k ∈ dkeys d) : dkeys (dictSet d k v) = dkeys d := by
  induction d with
  | nil => simp at h
  | cons p rest ih =>
    obtain ⟨k', v'⟩ := p
    by_cases hk : k' = k
    · simp [hk]
    · simp only [dkeys_cons, List.mem_cons] at h
      rcases h with h | h
      · exact absurd h.symm hk
      · simp [hk, ih h]

theorem length_dictSet {α β : Type} [DecidableEq α] (d : List (α × β)) (k : α) (v : β) :
    (dictSet d k v).length = if k ∈ dkeys d then d.length else d.length + 1 := by
  induction d with
  | nil => simp
  | cons p rest ih =>
    obtain ⟨k', v'⟩ := p
    by_cases h : k' = k
    · simp [h]
    · simp only [dictSet_cons, if_neg h, List.length_cons, ih, dkeys_cons, List.mem_cons]
      by_cases hm : k ∈ dkeys rest <;> simp [hm, Ne.symm h]

theorem length_le_length_dictSet {α β : Type} [DecidableEq α] (d : List (α × β)) (k : α) (v : β) :
    d.length ≤ (dictSet d k v).length := by
  rw [length_dictSet]; split <;> omega

theorem length_dictSet_le {α β : Type} [DecidableEq α] (d : List (α × β)) (k : α) (v : β) :
    (dictSet d k v).length ≤ d.length + 1 := by
  rw [length_dictSet]; split <;> omega

theorem mem_dkeys_dictSet {α β : Type} [DecidableEq α] (d : List (α × β)) (k k' : α) (v : β) :
    k' ∈ dkeys (dictSet d k v) ↔ k' ∈ dkeys d ∨ k' = k := by
  induction d with
  | nil => simp [eq_comm]
  | cons p rest ih =>
    obtain ⟨k₀, v₀⟩ := p
    by_cases h : k₀ = k
    · subst h
      simp only [dictSet_cons, eq_self_iff_true, if_true, dkeys_cons, List.mem_cons]
      tauto
    · simp only [dictSet_cons, if_neg h, dkeys_cons, List.mem_cons, ih]
      tauto

theorem nodup_dkeys_dictSet {α β : Type} [DecidableEq α] (d : List (α × β)) (k : α) (v : β)
    (h : (dkeys d).Nodup) : (dkeys (dictSet d k v)).Nodup := by
  by_cases hm : k ∈ dkeys d
  · rwa [dkeys_dictSet_of_mem d k v hm]
  · rw [dictSet_eq_append d k v hm]
    simp only [dkeys, List.map_append, List.map_cons, List.map_nil]
    rw [List.nodup_append]
    exact ⟨h, List.nodup_singleton k, by simpa [dkeys] using hm⟩

/-! ## Special symbols and the default vocabulary (`__init__` / `_init_vocab`) -/

/-- `self._PAD = "<|PAD|>"` -/
def PADs : Str := "<|PAD|>".data

/-- `self._UNK = "<|UNK|>"` -/
def UNKs : Str := "<|UNK|>".data

/-- `self._SOS = "<|SOS|>"` -/
def SOSs : Str := "<|SOS|>".data

/-- `self._EOS = "<|EOS|>"` -/
def EOSs : Str := "<|EOS|>".data

/-- A contiguous run of ASCII characters, with codes `lo, lo+1, ..., lo+n-1`. -/
def asciiRange (lo n : Nat) : List Char := (List.range n).map (fun k => Char.ofNat (lo + k))

/-- `string.ascii_letters + string.digits + string.punctuation + " "`:
lowercase a-z, uppercase A-Z, digits 0-9, the 32 ASCII punctuation characters
(codes 33-47, 58-64, 91-96, 123-126) and the space character. -/
def baseAlphabet : List Char :=
  asciiRange 97 26 ++ asciiRange 65 26 ++ asciiRange 48 10 ++
    (asciiRange 33 15 ++ asciiRange 58 7 ++ asciiRange 91 6 ++ asciiRange 123 4) ++ [' ']

/-- `self._default_chars = [PAD] + list(...) + [UNK] + [SOS] + [EOS]` -/
def defaultChars : List Str :=
  [PADs] ++ baseAlphabet.map (fun c => [c]) ++ [UNKs] ++ [SOSs] ++ [EOSs]

/-- `_init_vocab`: populate the vocab dict with the default symbols, each with
frequency 0 (`for element in vocab_elements: vocab[element] = 0`). -/
def initVocab : Vocab := defaultChars.foldl (fun v k => dictSet v k 0) []

/-! ## `_rebuild_token_dict` -/

/-- The membership test `token_str in [self._PAD, self._UNK, self._SOS, self._EOS]`. -/
def isSpecial (s : Str) : Bool := s == PADs || s == UNKs || s == SOSs || s == EOSs

theorem isSpecial_iff (s : Str) :
    isSpecial s = true ↔ s = PADs ∨ s = UNKs ∨ s = SOSs ∨ s = EOSs := by
  simp [isSpecial, or_assoc]

/-- The four fixed encoder entries written before the numbering loop. -/
def specialEnc : List (Str × Int) := [(PADs, 0), (UNKs, -999), (SOSs, -1), (EOSs, -2)]

/-- The four fixed decoder entries written before the numbering loop. -/
def specialDec : List (Int × Str) := [((0 : Int), PADs), (-999, UNKs), (-1, SOSs), (-2, EOSs)]

/-- The numbering loop of `_rebuild_token_dict`: iterate over the vocab's keys,
skip the special symbols, assign `i = 1, 2, 3, ...` to the remaining symbols,
writing both dict directions. -/
def rebuildAssign (e : List (Str × Int)) (d : List (Int × Str)) :
    List Str → Int → List (Str × Int) × List (Int × Str)
  | [], _ => (e, d)
  | k :: ks, i =>
    if isSpecial k then rebuildAssign e d ks i
    else rebuildAssign (dictSet e k i) (dictSet d i k) ks (i + 1)

/-- `_rebuild_token_dict`: the special symbols get fixed reserved IDs
(PAD=0, UNK=-999, SOS=-1, EOS=-2), then the learned symbols are numbered from 1
in vocab enumeration order. Returns `(encoder_dict, decoder_dict)`. -/
def rebuildTokenDict (vocab : Vocab) : List (Str × Int) × List (Int × Str) :=
  rebuildAssign specialEnc specialDec (dkeys vocab) 1

/-- The learned-symbol part of the encoder as an explicit list: the non-special
keys in order, paired with consecutive IDs starting at `i`. -/
def numberFrom (i : Int) : List Str → List (Str × Int)
  | [] => []
  | k :: ks => if isSpecial k then numberFrom i ks else (k, i) :: numberFrom (i + 1) ks

/-- The learned-symbol part of the decoder, mirror image of `numberFrom`. -/
def numberFromD (i : Int) : List Str → List (Int × Str)
  | [] => []
  | k :: ks => if isSpecial k then numberFromD i ks else (i, k) :: numberFromD (i + 1) ks

theorem alookup_append {α β : Type} [DecidableEq α] (xs ys : List (α × β)) (k : α) :
    alookup (xs ++ ys) k =
      match alookup xs k with
      | some v => some v
      | none => alookup ys k := by
  induction xs with
  | nil => simp
  | cons p rest ih =>
    obtain ⟨k', v'⟩ := p
    by_cases h : k' = k <;> simp [h, ih]

/-- With pairwise-distinct keys that are fresh for `e`, and all IDs in `d`
below the running counter, the numbering loop just appends. -/
theorem rebuildAssign_append (ks : List Str) :
    ∀ (e : List (Str × Int)) (d : List (Int × Str)) (i : Int),
    ks.Nodup → (∀ k ∈ ks, isSpecial k = false → k ∉ dkeys e) →
    (∀ id ∈ dkeys d, id < i) →
    rebuildAssign e d ks i = (e ++ numberFrom i ks, d ++ numberFromD i ks) := by
  induction ks with
  | nil => intro e d i _ _ _; simp [rebuildAssign, numberFrom, numberFromD]
  | cons k ks ih =>
    intro e d i hnd he hd
    rcases List.nodup_cons.mp hnd with ⟨hk, hnd'⟩
    by_cases hs : isSpecial k
    · rw [rebuildAssign, if_pos hs, numberFrom, if_pos hs, numberFromD, if_pos hs]
      exact ih e d i hnd' (fun k' hk' h' => he k' (List.mem_cons_of_mem _ hk') h') hd
    · rw [rebuildAssign, if_neg hs, numberFrom, if_neg (by simpa using hs),
        numberFromD, if_neg (by simpa using hs)]
      have hke : k ∉ dkeys e := he k (List.mem_cons_self _ _) (by simpa using hs)
      have hid : i ∉ dkeys d := fun hmem => lt_irrefl i (hd i hmem)
      rw [dictSet_eq_append e k i hke, dictSet_eq_append d i k hid]
      rw [ih (e ++ [(k, i)]) (d ++ [(i, k)]) (i + 1) hnd' ?_ ?_]
      · simp
      · intro k' hk' h'
        simp only [dkeys, List.map_append, List.mem_append] at *
        rintro (h | h)
        · exact he k' (List.mem_cons_of_mem _ hk') h' h
        · simp only [List.map_cons, List.map_nil, List.mem_singleton] at h
          exact hk (h ▸ hk')
      · intro id hmem
        simp only [dkeys, List.map_append, List.mem_append] at hmem
        rcases hmem with h | h
        · exact lt_trans (hd id h) (by omega)
        · simp only [List.map_cons, List.map_nil, List.mem_singleton] at h
          omega

/-- Under key uniqueness, `_rebuild_token_dict` has a fully explicit shape. -/
theorem rebuildTokenDict_eq (vocab : Vocab) (h : (dkeys vocab).Nodup) :
    rebuildTokenDict vocab =
      (specialEnc ++ numberFrom 1 (dkeys vocab),
       specialDec ++ numberFromD 1 (dkeys vocab)) := by
  apply rebuildAssign_append (dkeys vocab) specialEnc specialDec 1 h
  · intro k _ hns
    have := (not_iff_not.mpr (isSpecial_iff k)).mp (by simp [hns])
    push_neg at this
    simp [specialEnc, dkeys, this.1, this.2.1, this.2.2.1, this.2.2.2]
  · intro id hmem
    simp only [specialDec, dkeys, List.map_cons, List.map_nil, List.mem_cons,
      List.not_mem_nil, or_false] at hmem
    rcases hmem with rfl | rfl | rfl | rfl <;> omega

/-- The numbering loop never touches the (special-symbol) entries already in `e`. -/
theorem rebuildAssign_enc_special (ks : List Str) :
    ∀ (e : List (Str × Int)) (d : List (Int × Str)) (i : Int) (s : Str), isSpecial s = true →
    alookup (rebuildAssign e d ks i).1 s = alookup e s := by
  induction ks with
  | nil => intro e d i s _; rfl
  | cons k ks ih =>
    intro e d i s hs
    by_cases hk : isSpecial k
    · rw [rebuildAssign, if_pos hk, ih _ _ _ _ hs]
    · rw [rebuildAssign, if_neg hk, ih _ _ _ _ hs]
      exact alookup_dictSet_ne e k s i (fun hh => hk (hh ▸ hs))

/-- The numbering loop only writes decoder IDs `≥ i`. -/
theorem rebuildAssign_dec_lt (ks : List Str) :
    ∀ (e : List (Str × Int)) (d : List (Int × Str)) (i : Int) (id : Int), id < i →
    alookup (rebuildAssign e d ks i).2 id = alookup d id := by
  induction ks with
  | nil => intro e d i id _; rfl
  | cons k ks ih =>
    intro e d i id hid
    by_cases hk : isSpecial k
    · rw [rebuildAssign, if_pos hk, ih _ _ _ _ hid]
    · rw [rebuildAssign, if_neg hk, ih _ _ _ _ (by omega)]
      exact alookup_dictSet_ne d i id k (by omega)

/-- The four reserved IDs are present in both directions of every rebuilt
token dict, regardless of the vocabulary. -/
theorem rebuild_specials (v : Vocab) :
    alookup (rebuildTokenDict v).1 PADs = some 0 ∧
    alookup (rebuildTokenDict v).1 UNKs = some (-999) ∧
    alookup (rebuildTokenDict v).1 SOSs = some (-1) ∧
    alookup (rebuildTokenDict v).1 EOSs = some (-2) ∧
    alookup (rebuildTokenDict v).2 0 = some PADs ∧
    alookup (rebuildTokenDict v).2 (-999) = some UNKs ∧
    alookup (rebuildTokenDict v).2 (-1) = some SOSs ∧
    alookup (rebuildTokenDict v).2 (-2) = some EOSs := by
  unfold rebuildTokenDict
  refine ⟨?_, ?_, ?_, ?_, ?_, ?_, ?_, ?_⟩
  · rw [rebuildAssign_enc_special _ _ _ _ _ (by decide)]; decide
  · rw [rebuildAssign_enc_special _ _ _ _ _ (by decide)]; decide
  · rw [rebuildAssign_enc_special _ _ _ _ _ (by decide)]; decide
  · rw [rebuildAssign_enc_special _ _ _ _ _ (by decide)]; decide
  · rw [rebuildAssign_dec_lt _ _ _ _ _ (by omega)]; decide
  · rw [rebuildAssign_dec_lt _ _ _ _ _ (by omega)]; decide
  · rw [rebuildAssign_dec_lt _ _ _ _ _ (by omega)]; decide
  · rw [rebuildAssign_dec_lt _ _ _ _ _ (by omega)]; decide

theorem mem_dkeys_numberFrom (ks : List Str) :
    ∀ (i : Int) (s : Str), s ∈ dkeys (numberFrom i ks) → s ∈ ks := by
  induction ks with
  | nil => intro i s h; simp [numberFrom] at h
  | cons k ks ih =>
    intro i s h
    by_cases hk : isSpecial k
    · rw [numberFrom, if_pos hk] at h
      exact List.mem_cons_of_mem _ (ih i s h)
    · rw [numberFrom, if_neg hk] at h
      rcases List.mem_cons.mp h with h | h
      · exact h ▸ List.mem_cons_self _ _
      · exact List.mem_cons_of_mem _ (ih (i + 1) s h)

theorem numberFrom_inv (ks : List Str) :
    ∀ (i : Int) (s : Str) (id : Int), alookup (numberFrom i ks) s = some id →
    alookup (numberFromD i ks) id = some s ∧ isSpecial s = false ∧ i ≤ id := by
  induction ks with
  | nil => intro i s id h; simp [numberFrom] at h
  | cons k ks ih =>
    intro i s id h
    by_cases hk : isSpecial k
    · rw [numberFrom, if_pos hk] at h
      rw [numberFromD, if_pos hk]
      exact ih i s id h
    · rw [numberFrom, if_neg hk] at h
      rw [numberFromD, if_neg hk]
      rw [alookup_cons] at h
      by_cases hks : k = s
      · rw [if_pos hks] at h
        obtain rfl : i = id := by simpa using h
        subst hks
        simp [Bool.of_not_eq_true hk]
      · rw [if_neg hks] at h
        obtain ⟨hd, hns, hle⟩ := ih (i + 1) s id h
        rw [alookup_cons, if_neg (by omega)]
        exact ⟨hd, hns, by omega⟩

theorem numberFromD_inv (ks : List Str) :
    ∀ (i : Int) (id : Int) (s : Str), ks.Nodup →
    alookup (numberFromD i ks) id = some s →
    alookup (numberFrom i ks) s = some id ∧ isSpecial s = false ∧ i ≤ id := by
  induction ks with
  | nil => intro i id s _ h; simp [numberFromD] at h
  | cons k ks ih =>
    intro i id s hnd h
    rcases List.nodup_cons.mp hnd with ⟨hknotin, hnd'⟩
    by_cases hk : isSpecial k
    · rw [numberFromD, if_pos hk] at h
      rw [numberFrom, if_pos hk]
      exact ih i id s hnd' h
    · rw [numberFromD, if_neg hk] at h
      rw [numberFrom, if_neg hk]
      rw [alookup_cons] at h
      by_cases hid : i = id
      · rw [if_pos hid] at h
        obtain rfl : k = s := by simpa using h
        rw [alookup_cons, if_pos rfl]
        exact ⟨by rw [hid], Bool.of_not_eq_true hk, by omega⟩
      · rw [if_neg hid] at h
        obtain ⟨he, hns, hle⟩ := ih (i + 1) id s hnd' h
        have hks : k ≠ s := by
          intro hh
          subst hh
          have : k ∈ dkeys (numberFrom (i + 1) ks) := by
            rw [← alookup_isSome_iff, he]; rfl
          exact hknotin (mem_dkeys_numberFrom ks (i + 1) k this)
        rw [alookup_cons, if_neg hks]
        exact ⟨he, hns, by omega⟩

theorem numberFrom_of_mem (ks : List Str) :
    ∀ (i : Int) (s : Str), s ∈ ks → isSpecial s = false →
    ∃ id, alookup (numberFrom i ks) s = some id := by
  induction ks with
  | nil => intro i s h _; cases h
  | cons k ks ih =>
    intro i s hs hns
    by_cases hk : isSpecial k
    · rw [numberFrom, if_pos hk]
      rcases List.mem_cons.mp hs with h | h
      · subst h; rw [hns] at hk; cases hk
      · exact ih i s h hns
    · rw [numberFrom, if_neg hk]
      by_cases hks : k = s
      · exact ⟨i, by rw [alookup_cons, if_pos hks]⟩
      · rcases List.mem_cons.mp hs with h | h
        · exact absurd h.symm hks
        · obtain ⟨id, hid⟩ := ih (i + 1) s h hns
          exact ⟨id, by rw [alookup_cons, if_neg hks]; exact hid⟩

theorem alookup_specialEnc_none (s : Str) (h : isSpecial s = false) :
    alookup specialEnc s = none := by
  have h4 := (not_iff_not.mpr (isSpecial_iff s)).mp (by simp [h])
  push_neg at h4
  simp only [specialEnc, alookup_cons, alookup_nil]
  rw [if_neg (fun hh => h4.1 hh.symm), if_neg (fun hh => h4.2.1 hh.symm),
    if_neg (fun hh => h4.2.2.1 hh.symm), if_neg (fun hh => h4.2.2.2 hh.symm)]

theorem alookup_specialDec_none (id : Int) (h : 1 ≤ id) :
    alookup specialDec id = none := by
  simp only [specialDec, alookup_cons, alookup_nil]
  rw [if_neg (by omega), if_neg (by omega), if_neg (by omega), if_neg (by omega)]

theorem alookup_append_left {α β : Type} [DecidableEq α] (xs ys : List (α × β)) (k : α) (v : β)
    (h : alookup xs k = some v) : alookup (xs ++ ys) k = some v := by
  rw [alookup_append, h]

theorem alookup_append_right {α β : Type} [DecidableEq α] (xs ys : List (α × β)) (k : α)
    (h : alookup xs k = none) : alookup (xs ++ ys) k = alookup ys k := by
  rw [alookup_append, h]

theorem specialEnc_cases (s : Str) (n : Int) (h : alookup specialEnc s = some n) :
    (s = PADs ∧ n = 0) ∨ (s = UNKs ∧ n = -999) ∨ (s = SOSs ∧ n = -1) ∨ (s = EOSs ∧ n = -2) := by
  simp only [specialEnc, alookup_cons, alookup_nil] at h
  split_ifs at h with h1 h2 h3 h4
  · exact Or.inl ⟨h1.symm, by simpa using h.symm⟩
  · exact Or.inr (Or.inl ⟨h2.symm, by simpa using h.symm⟩)
  · exact Or.inr (Or.inr (Or.inl ⟨h3.symm, by simpa using h.symm⟩))
  · exact Or.inr (Or.inr (Or.inr ⟨h4.symm, by simpa using h.symm⟩))

theorem specialDec_cases (n : Int) (s : Str) (h : alookup specialDec n = some s) :
    (n = 0 ∧ s = PADs) ∨ (n = -999 ∧ s = UNKs) ∨ (n = -1 ∧ s = SOSs) ∨ (n = -2 ∧ s = EOSs) := by
  simp only [specialDec, alookup_cons, alookup_nil] at h
  split_ifs at h with h1 h2 h3 h4
  · exact Or.inl ⟨h1.symm, by simpa using h.symm⟩
  · exact Or.inr (Or.inl ⟨h2.symm, by simpa using h.symm⟩)
  · exact Or.inr (Or.inr (Or.inl ⟨h3.symm, by simpa using h.symm⟩))
  · exact Or.inr (Or.inr (Or.inr ⟨h4.symm, by simpa using h.symm⟩))

/-- Under key uniqueness, the rebuilt encoder and decoder are mutually inverse. -/
theorem rebuild_inverse (v : Vocab) (h : (dkeys v).Nodup) (s : Str) (n : Int) :
    alookup (rebuildTokenDict v).1 s = some n ↔ alookup (rebuildTokenDict v).2 n = some s := by
  rw [rebuildTokenDict_eq v h]
  constructor
  · intro he
    cases hse : alookup specialEnc s with
    | some val =>
      rw [alookup_append_left _ _ _ _ hse] at he
      have hv : val = n := by simpa using he
      rcases specialEnc_cases s val hse with ⟨rfl, hval⟩ | ⟨rfl, hval⟩ | ⟨rfl, hval⟩ | ⟨rfl, hval⟩ <;>
        (rw [← hv, hval]; exact alookup_append_left _ _ _ _ (by decide))
    | none =>
      rw [alookup_append_right _ _ _ hse] at he
      obtain ⟨hd, _, hle⟩ := numberFrom_inv (dkeys v) 1 s n he
      rw [alookup_append_right _ _ _ (alookup_specialDec_none n hle)]
      exact hd
  · intro hd
    cases hsd : alookup specialDec n with
    | some val =>
      rw [alookup_append_left _ _ _ _ hsd] at hd
      have hv : val = s := by simpa using hd
      rcases specialDec_cases n val hsd with ⟨hn, hval⟩ | ⟨hn, hval⟩ | ⟨hn, hval⟩ | ⟨hn, hval⟩ <;>
        (rw [← hv, hval, hn]; exact alookup_append_left _ _ _ _ (by decide))
    | none =>
      rw [alookup_append_right _ _ _ hsd] at hd
      obtain ⟨he, hns, _⟩ := numberFromD_inv (dkeys v) 1 n s h hd
      rw [alookup_append_right _ _ _ (alookup_specialEnc_none s hns)]
      exact he

/-- Every vocab key (and every special symbol) has an encoder ID that the
decoder maps back to it. -/
theorem rebuild_mem_inv (v : Vocab) (h : (dkeys v).Nodup) (s : Str) (hs : s ∈ dkeys v) :
    ∃ n, alookup (rebuildTokenDict v).1 s = some n ∧
      alookup (rebuildTokenDict v).2 n = some s := by
  obtain ⟨hP, hU, hS, hE, hP', hU', hS', hE'⟩ := rebuild_specials v
  by_cases hsp : isSpecial s
  · rcases (isSpecial_iff s).mp hsp with rfl | rfl | rfl | rfl
    · exact ⟨0, hP, hP'⟩
    · exact ⟨-999, hU, hU'⟩
    · exact ⟨-1, hS, hS'⟩
    · exact ⟨-2, hE, hE'⟩
  · have hns : isSpecial s = false := Bool.of_not_eq_true hsp
    obtain ⟨n, hn⟩ := numberFrom_of_mem (dkeys v) 1 s hs hns
    have he : alookup (rebuildTokenDict v).1 s = some n := by
      rw [rebuildTokenDict_eq v h]
      rw [alookup_append_right _ _ _ (alookup_specialEnc_none s hns)]
      exact hn
    exact ⟨n, he, (rebuild_inverse v h s n).mp he⟩

/-! ## Greedy encoding (`encode`, default `pad_to_tokens=0`) -/

/-- Python slice `text[i:j]` (empty when `j ≤ i`, clipped at the end). -/
def pySlice (t : List Char) (i j : Nat) : Str := (t.drop i).take (j - i)

/-- The one-character string `text[j]`, or `""` when `j` is out of range. -/
def charAt (t : List Char) (j : Nat) : Str := (t.drop j).take 1

/-- The `while j <= len(text)` scan of `encode`.  State: window start `i`,
probe position `j`, accumulated `tokens`, and the `end_string` flag.  The
result is `none` exactly when an uncaught `KeyError` occurs (an encoder dict
missing a required special entry). -/
def encodeLoop (vocab : Vocab) (enc : List (Str × Int)) (text : List Char)
    (i j : Nat) (tokens : List Int) (endString : Bool) : Option (List Int) :=
  if hj : j ≤ text.length then
    if hp : PADs.isPrefixOf (text.drop i) then
      match alookup enc PADs with
      | some tk => encodeLoop vocab enc text (i + PADs.length) j (tokens ++ [tk]) endString
      | none => none
    else if he : EOSs.isPrefixOf (text.drop i) then
      match alookup enc EOSs with
      | some tk => encodeLoop vocab enc text (i + EOSs.length) j (tokens ++ [tk]) endString
      | none => none
    else
      let currWord := pySlice text i j
      let nextChar := charAt text j
      let endString' := if j < text.length then endString else true
      if currWord ++ nextChar ≠ [] ∧
          ((alookup vocab (currWord ++ nextChar)).isNone ∨ endString' = true) then
        match (match alookup enc currWord with
               | some tk => some tk
               | none => alookup enc UNKs) with
        | some tk => encodeLoop vocab enc text j (j + 1) (tokens ++ [tk]) endString'
        | none => none
      else
        encodeLoop vocab enc text i (j + 1) tokens endString'
  else some tokens
termination_by (text.length + 1 - j, text.length - i)
decreasing_by
  · apply Prod.Lex.right
    have hle : PADs.length ≤ (text.drop i).length :=
      (List.isPrefixOf_iff_prefix.mp hp).length_le
    simp only [List.length_drop] at hle
    have h7 : PADs.length = 7 := rfl
    omega
  · apply Prod.Lex.right
    have hle : EOSs.length ≤ (text.drop i).length :=
      (List.isPrefixOf_iff_prefix.mp he).length_le
    simp only [List.length_drop] at hle
    have h7 : EOSs.length = 7 := rfl
    omega
  · apply Prod.Lex.left
    omega
  · apply Prod.Lex.left
    omega

/-- `encode(text)` with the default `pad_to_tokens=0` (no padding): run the
scan from `i = j = 0` with an empty accumulator.  `enc` is the tokenizer's
`encoder_dict` (always `(rebuildTokenDict vocab).1` in a live instance). -/
def encode (vocab : Vocab) (enc : List (Str × Int)) (text : List Char) : Option (List Int) :=
  encodeLoop vocab enc text 0 0 [] false

/-- `_decode_chunks` without the empty-dict guard: look up each token ID in the
decoder dict; an absent ID is an uncaught `KeyError` (`none`). -/
def decodeChunks (dec : List (Int × Str)) : List Int → Option (List Str)
  | [] => some []
  | t :: ts =>
    match alookup dec t with
    | some s => (decodeChunks dec ts).map (fun r => s :: r)
    | none => none

/-- `decode`: `"".join(self._decode_chunks(tokens))`. -/
def decode (dec : List (Int × Str)) (tokens : List Int) : Option Str :=
  (decodeChunks dec tokens).map List.flatten

/-- Length of the greedy segment taken from the front of `t`: starting from the
single first character (`k = 1`), extend while the one-longer prefix is still a
vocab key. -/
def grabLen (vocab : Vocab) (t : List Char) (k : Nat) : Nat :=
  if k < t.length ∧ (alookup vocab (t.take (k + 1))).isSome then grabLen vocab t (k + 1) else k
termination_by t.length - k

theorem grabLen_ge (vocab : Vocab) (t : List Char) (k : Nat) : k ≤ grabLen vocab t k := by
  have H : ∀ n k, t.length - k ≤ n → k ≤ grabLen vocab t k := by
    intro n
    induction n with
    | zero =>
      intro k hk
      rw [grabLen]
      split
      · next h => omega
      · exact le_refl k
    | succ n ih =>
      intro k hk
      rw [grabLen]
      split
      · next h => exact le_trans (by omega) (ih (k + 1) (by omega))
      · exact le_refl k
  exact H t.length k (by omega)

theorem grabLen_le (vocab : Vocab) (t : List Char) (k : Nat) (hk : k ≤ t.length) :
    grabLen vocab t k ≤ t.length := by
  have H : ∀ n k, t.length - k ≤ n → k ≤ t.length → grabLen vocab t k ≤ t.length := by
    intro n
    induction n with
    | zero =>
      intro k hn hk
      rw [grabLen]
      split
      · next h => omega
      · exact hk
    | succ n ih =>
      intro k hn hk
      rw [grabLen]
      split
      · next h => exact ih (k + 1) (by omega) (by omega)
      · exact hk
  exact H t.length k (by omega) hk

/-- Reference form of the greedy scan: at each position, intercept a literal
PAD or EOS marker, otherwise emit the ID of the greedy segment
`t.take (grabLen vocab t 1)` (falling back to UNK when the segment is not in
the encoder dict).  The two-cursor loop `encodeLoop` is proved to coincide
with this on well-formed inputs. -/
def specEncode (vocab : Vocab) (enc : List (Str × Int)) (t : List Char) : Option (List Int) :=
  if ht : t = [] then some []
  else if PADs.isPrefixOf t then
    match alookup enc PADs with
    | some tk => (specEncode vocab enc (t.drop PADs.length)).map (fun r => tk :: r)
    | none => none
  else if EOSs.isPrefixOf t then
    match alookup enc EOSs with
    | some tk => (specEncode vocab enc (t.drop EOSs.length)).map (fun r => tk :: r)
    | none => none
  else
    match (match alookup enc (t.take (grabLen vocab t 1)) with
           | some tk => some tk
           | none => alookup enc UNKs) with
    | some tk => (specEncode vocab enc (t.drop (grabLen vocab t 1))).map (fun r => tk :: r)
    | none => none
termination_by t.length
decreasing_by
  · have := List.length_pos.mpr ht
    simp only [List.length_drop]
    have h7 : PADs.length = 7 := rfl
    omega
  · have := List.length_pos.mpr ht
    simp only [List.length_drop]
    have h7 : EOSs.length = 7 := rfl
    omega
  · have h1 := grabLen_ge vocab t 1
    have := List.length_pos.mpr ht
    simp only [List.length_drop]
    omega

/-! ### Slice arithmetic -/

theorem pySlice_eq_nil_of_le (t : List Char) (i j : Nat) (h : j ≤ i) : pySlice t i j = [] := by
  simp [pySlice, Nat.sub_eq_zero_of_le h]

theorem pySlice_eq_nil_cases (t : List Char) (i j : Nat) (h : pySlice t i j = []) :
    j ≤ i ∨ t.length ≤ i := by
  rcases List.take_eq_nil_iff.mp h with h | h
  · left; omega
  · right; exact List.drop_eq_nil_iff_le.mp h

theorem charAt_eq_nil (t : List Char) (j : Nat) (h : t.length ≤ j) : charAt t j = [] := by
  simp [charAt, List.drop_eq_nil_iff_le.mpr h]

theorem charAt_ne_nil (t : List Char) (j : Nat) (h : j < t.length) : charAt t j ≠ [] := by
  intro hc
  rcases List.take_eq_nil_iff.mp hc with h' | h'
  · cases h'
  · have := List.drop_eq_nil_iff_le.mp h'
    omega

theorem pySlice_succ_right (t : List Char) (i j : Nat) (h1 : i ≤ j) (h2 : j < t.length) :
    pySlice t i (j + 1) = pySlice t i j ++ charAt t j := by
  unfold pySlice charAt
  have hs : j + 1 - i = (j - i) + 1 := by omega
  have hj : i + (j - i) = j := by omega
  rw [hs, List.take_add, List.drop_drop, hj]

theorem drop_eq_pySlice_append (t : List Char) (i j : Nat) (h : i ≤ j) :
    t.drop i = pySlice t i j ++ t.drop j := by
  have hj : i + (j - i) = j := by omega
  conv_lhs => rw [← List.take_append_drop (j - i) (t.drop i)]
  rw [List.drop_drop, hj]
  rfl

theorem drop_pySlice_drop (t : List Char) (i j : Nat) (h : i ≤ j) :
    (t.drop i).drop (j - i) = t.drop j := by
  have hj : i + (j - i) = j := by omega
  rw [List.drop_drop, hj]

theorem take_drop_eq_pySlice (t : List Char) (i m : Nat) :
    (t.drop i).take m = pySlice t i (i + m) := by
  unfold pySlice
  congr 1
  omega

theorem drop_ne_nil (t : List Char) (i : Nat) (h : i < t.length) : t.drop i ≠ [] := by
  intro hc
  have := List.drop_eq_nil_iff.mp hc
  omega

theorem length_pySlice (t : List Char) (i j : Nat) :
    (pySlice t i j).length = min (j - i) (t.length - i) := by
  simp [pySlice]

theorem prefix_drop_decomp (p : List Char) (t : List Char) (i : Nat) (hp : p ≠ [])
    (h : p.isPrefixOf (t.drop i) = true) :
    t.drop i = p ++ t.drop (i + p.length) ∧ i + p.length ≤ t.length := by
  obtain ⟨rest, hrest⟩ := List.isPrefixOf_iff_prefix.mp h
  have hi : i ≤ t.length := by
    by_contra hc
    push_neg at hc
    rw [List.drop_eq_nil_iff.mpr (le_of_lt hc)] at hrest
    cases p with
    | nil => exact hp rfl
    | cons a l => simp at hrest
  have hlen : p.length + rest.length = t.length - i := by
    have := congrArg List.length hrest
    simpa using this
  refine ⟨?_, by omega⟩
  have hdrop : t.drop (i + p.length) = rest := by
    have h2 : t.drop (i + p.length) = (t.drop i).drop p.length := by
      rw [List.drop_drop]
    rw [h2, ← hrest]
    exact List.drop_left p rest
  rw [hdrop, hrest]

/-- A PAD/EOS marker prefix of `pre ++ rest` that would have to straddle the
boundary is impossible when `rest` is empty or opens with '<': both markers
contain '<' only at position 0.  Hence the marker is already a prefix of
`pre`. -/
theorem marker_isPrefixOf_append (p : List Char) (pre rest : List Char)
    (hm : p = PADs ∨ p = EOSs) (hpre : pre ≠ []) (hrest : rest = [] ∨ rest.head? = some '<')
    (h : p.isPrefixOf (pre ++ rest) = true) : p.isPrefixOf pre = true := by
  rw [List.isPrefixOf_iff_prefix] at h ⊢
  rcases le_or_lt p.length pre.length with hle | hlt
  · have htake := List.prefix_take_iff.mpr ⟨h, le_refl _⟩
    have heq : (pre ++ rest).take p.length = pre.take p.length :=
      List.take_append_of_le_length hle
    rw [heq] at htake
    exact htake.trans (List.take_prefix _ _)
  · exfalso
    have hprepre : pre <+: p := by
      have h1 : pre <+: pre ++ rest := List.prefix_append pre rest
      have h2 := List.prefix_take_iff.mpr ⟨h1, le_of_lt hlt⟩
      have h3 : (pre ++ rest).take p.length = p := by
        obtain ⟨r2, hr2⟩ := h
        rw [← hr2, List.take_left' rfl]
      rw [h3] at h2
      exact h2
    obtain ⟨tail, htail⟩ := hprepre
    have htne : tail ≠ [] := by
      intro hc
      rw [hc, List.append_nil] at htail
      rw [htail] at hlt
      omega
    have htr : tail <+: rest := by
      have : pre ++ tail <+: pre ++ rest := htail ▸ h
      exact (List.prefix_append_right_inj pre).mp this
    have hhead : tail.head? = some '<' := by
      rcases hrest with hr | hr
      · exfalso
        rw [hr] at htr
        exact htne (List.prefix_nil.mp htr)
      · obtain ⟨r2, hr2⟩ := htr
        cases tail with
        | nil => exact absurd rfl htne
        | cons a l =>
          rw [← hr2] at hr
          simpa using hr
    have hpos : ∀ n, n < p.length → 0 < n → p.get? n ≠ some '<' := by
      rcases hm with rfl | rfl <;> decide
    cases tail with
    | nil => exact htne rfl
    | cons a l =>
      have ha : a = '<' := by simpa using hhead
      have hget : p.get? pre.length = some a := by
        rw [← htail, List.get?_append_right (le_refl _)]
        simp
      have hlen2 : pre.length < p.length := by
        rw [← htail]
        simp
      have h0 : 0 < pre.length := List.length_pos.mpr hpre
      exact hpos pre.length hlen2 h0 (ha ▸ hget)

/-! ### Unfolding lemmas for the scan functions -/

theorem grabLen_eq (vocab : Vocab) (t : List Char) (K : Nat) (h1 : 1 ≤ K) (hK : K ≤ t.length)
    (hgrow : ∀ m, 1 < m → m ≤ K → (alookup vocab (t.take m)).isSome = true)
    (hstop : K = t.length ∨ (alookup vocab (t.take (K + 1))).isSome = false) :
    grabLen vocab t 1 = K := by
  have hKstop : grabLen vocab t K = K := by
    rw [grabLen, if_neg]
    rintro ⟨hlt, hsome⟩
    rcases hstop with hs | hs
    · omega
    · rw [hs] at hsome; cases hsome
  have H : ∀ n k, K - k ≤ n → 1 ≤ k → k ≤ K → grabLen vocab t k = K := by
    intro n
    induction n with
    | zero =>
      intro k hn _ hkK
      have hk : k = K := by omega
      subst hk; exact hKstop
    | succ n ih =>
      intro k hn h1k hkK
      by_cases hk : k = K
      · subst hk; exact hKstop
      · rw [grabLen, if_pos ⟨by omega, hgrow (k + 1) (by omega) (by omega)⟩]
        exact ih (k + 1) (by omega) (by omega) (by omega)
  exact H K 1 (by omega) (le_refl 1) h1

theorem specEncode_nil (vocab : Vocab) (enc : List (Str × Int)) :
    specEncode vocab enc [] = some [] := by
  rw [specEncode, dif_pos rfl]

theorem specEncode_pad (vocab : Vocab) (enc : List (Str × Int)) (t : List Char)
    (ht : t ≠ []) (hp : PADs.isPrefixOf t = true) :
    specEncode vocab enc t =
      match alookup enc PADs with
      | some tk => (specEncode vocab enc (t.drop PADs.length)).map (fun r => tk :: r)
      | none => none := by
  rw [specEncode, dif_neg ht, if_pos hp]

theorem specEncode_eos (vocab : Vocab) (enc : List (Str × Int)) (t : List Char)
    (ht : t ≠ []) (hnp : ¬(PADs.isPrefixOf t = true)) (he : EOSs.isPrefixOf t = true) :
    specEncode vocab enc t =
      match alookup enc EOSs with
      | some tk => (specEncode vocab enc (t.drop EOSs.length)).map (fun r => tk :: r)
      | none => none := by
  rw [specEncode, dif_neg ht, if_neg hnp, if_pos he]

theorem specEncode_grab (vocab : Vocab) (enc : List (Str × Int)) (t : List Char)
    (ht : t ≠ []) (hnp : ¬(PADs.isPrefixOf t = true)) (hne : ¬(EOSs.isPrefixOf t = true)) :
    specEncode vocab enc t =
      match (match alookup enc (t.take (grabLen vocab t 1)) with
             | some tk => some tk
             | none => alookup enc UNKs) with
      | some tk => (specEncode vocab enc (t.drop (grabLen vocab t 1))).map (fun r => tk :: r)
      | none => none := by
  rw [specEncode, dif_neg ht, if_neg hnp, if_neg hne]

theorem encodeLoop_exit (vocab : Vocab) (enc : List (Str × Int)) (text : List Char)
    (i j : Nat) (tokens : List Int) (endString : Bool) (hj : ¬ j ≤ text.length) :
    encodeLoop vocab enc text i j tokens endString = some tokens := by
  rw [encodeLoop, dif_neg hj]

theorem encodeLoop_pad (vocab : Vocab) (enc : List (Str × Int)) (text : List Char)
    (i j : Nat) (tokens : List Int) (endString : Bool) (hj : j ≤ text.length)
    (hp : PADs.isPrefixOf (text.drop i) = true) :
    encodeLoop vocab enc text i j tokens endString =
      match alookup enc PADs with
      | some tk => encodeLoop vocab enc text (i + PADs.length) j (tokens ++ [tk]) endString
      | none => none := by
  rw [encodeLoop, dif_pos hj, dif_pos hp]

theorem encodeLoop_eos (vocab : Vocab) (enc : List (Str × Int)) (text : List Char)
    (i j : Nat) (tokens : List Int) (endString : Bool) (hj : j ≤ text.length)
    (hnp : ¬(PADs.isPrefixOf (text.drop i) = true))
    (he : EOSs.isPrefixOf (text.drop i) = true) :
    encodeLoop vocab enc text i j tokens endString =
      match alookup enc EOSs with
      | some tk => encodeLoop vocab enc text (i + EOSs.length) j (tokens ++ [tk]) endString
      | none => none := by
  rw [encodeLoop, dif_pos hj, dif_neg hnp, dif_pos he]

theorem encodeLoop_main (vocab : Vocab) (enc : List (Str × Int)) (text : List Char)
    (i j : Nat) (tokens : List Int) (endString : Bool) (hj : j ≤ text.length)
    (hnp : ¬(PADs.isPrefixOf (text.drop i) = true))
    (hne : ¬(EOSs.isPrefixOf (text.drop i) = true)) :
    encodeLoop vocab enc text i j tokens endString =
      (if pySlice text i j ++ charAt text j ≠ [] ∧
           ((alookup vocab (pySlice text i j ++ charAt text j)).isNone = true ∨
             (if j < text.length then endString else true) = true) then
         match (match alookup enc (pySlice text i j) with
                | some tk => some tk
                | none => alookup enc UNKs) with
         | some tk => encodeLoop vocab enc text j (j + 1) (tokens ++ [tk])
             (if j < text.length then endString else true)
         | none => none
       else encodeLoop vocab enc text i (j + 1) tokens
         (if j < text.length then endString else true)) := by
  rw [encodeLoop, dif_pos hj, dif_neg hnp, dif_neg hne]

theorem option_map_map_append (o : Option (List Int)) (tokens : List Int) (tk : Int) :
    (o.map (fun r => tk :: r)).map (fun r => tokens ++ r) =
      o.map (fun r => (tokens ++ [tk]) ++ r) := by
  cases o <;> simp

/-- Greedy-segment reduction of `specEncode` at a window `[i, j)` whose
intermediate extensions are all vocab keys and whose next extension fails (or
hits the end of the text). -/
theorem specEncode_emission (vocab : Vocab) (enc : List (Str × Int)) (text : List Char)
    (i j : Nat) (hij : i < j) (hj : j ≤ text.length)
    (hwin : ∀ m, i + 1 < m → m ≤ j → (alookup vocab (pySlice text i m)).isSome = true)
    (hnp : ¬(PADs.isPrefixOf (text.drop i) = true))
    (hne : ¬(EOSs.isPrefixOf (text.drop i) = true))
    (hstop : j = text.length ∨ (alookup vocab (pySlice text i (j + 1))).isSome = false) :
    specEncode vocab enc (text.drop i) =
      match (match alookup enc (pySlice text i j) with
             | some tk => some tk
             | none => alookup enc UNKs) with
      | some tk => (specEncode vocab enc (text.drop j)).map (fun r => tk :: r)
      | none => none := by
  have hilen : i < text.length := lt_of_lt_of_le hij hj
  have hgl : grabLen vocab (text.drop i) 1 = j - i := by
    apply grabLen_eq
    · omega
    · simp only [List.length_drop]; omega
    · intro m h1m hmK
      rw [take_drop_eq_pySlice]
      exact hwin (i + m) (by omega) (by omega)
    · rcases hstop with hs | hs
      · left; simp only [List.length_drop]; omega
      · right
        have hT : (text.drop i).take ((j - i) + 1) = pySlice text i (j + 1) := by
          rw [take_drop_eq_pySlice]
          unfold pySlice
          congr 2
          omega
        rw [hT]
        exact hs
  rw [specEncode_grab vocab enc (text.drop i) (drop_ne_nil text i hilen) hnp hne, hgl,
    drop_pySlice_drop text i j (le_of_lt hij)]
  rfl

theorem isSome_isNone_absurd {α : Type} (o : Option α) (h1 : o.isNone = true)
    (h2 : o.isSome = true) : False := by
  cases o <;> simp_all

/-- Invariant characterizing the `encodeLoop` states reachable from a
well-formed start (`i = j = 0`, `endString = false`). -/
def LoopInv (vocab : Vocab) (text : List Char) (i j : Nat) (endString : Bool) : Prop :=
  (endString = false ∧ j ≤ text.length ∧ i ≤ text.length ∧
    (i < j →
      (∀ m, i + 1 < m → m ≤ j → (alookup vocab (pySlice text i m)).isSome = true) ∧
      ((¬(PADs.isPrefixOf (text.drop i) = true) ∧ ¬(EOSs.isPrefixOf (text.drop i) = true)) ∨
        j = i + 1)) ∧
    (j < i →
      (∀ m, j ≤ m → m < i → (alookup vocab (charAt text m)).isSome = true) ∧
      (i < text.length → (alookup vocab (charAt text i)).isSome = true)) ∧
    (i = j → 0 < i → i < text.length → (alookup vocab (charAt text i)).isSome = true))
  ∨ (j = text.length + 1 ∧ i = text.length)

theorem encodeLoop_eq_specEncode (vocab : Vocab) (enc : List (Str × Int)) (text : List Char)
    (Hstart : 0 < text.length → (alookup vocab (charAt text 0)).isSome = true)
    (Hmk : ∀ p, (PADs.isPrefixOf (text.drop p) = true ∨ EOSs.isPrefixOf (text.drop p) = true) →
      ∀ q, p ≤ q → q < p + 8 → q < text.length → (alookup vocab (charAt text q)).isSome = true)
    (i j : Nat) (tokens : List Int) (endString : Bool) :
    LoopInv vocab text i j endString →
    encodeLoop vocab enc text i j tokens endString =
      (specEncode vocab enc (text.drop i)).map (fun r => tokens ++ r) := by
  induction i, j, tokens, endString using encodeLoop.induct vocab enc text with
  | case1 i j tokens endString hj hp tk htk ih =>
    intro hinv
    rcases hinv with ⟨hes, hjle, hile, hwin, hcatch, hieq⟩ | ⟨hj1, _⟩
    swap
    · omega
    subst hes
    obtain ⟨hdec, hlen7⟩ := prefix_drop_decomp PADs text i (by decide) hp
    have h7 : PADs.length = 7 := rfl
    have hij' : j < i + PADs.length := by
      rcases lt_trichotomy i j with h | h | h
      · rcases (hwin h).2 with ⟨hnp', _⟩ | hj1
        · exact absurd hp hnp'
        · omega
      · omega
      · omega
    have hinv' : LoopInv vocab text (i + PADs.length) j false := by
      left
      refine ⟨rfl, hjle, hlen7, ?_, ?_, ?_⟩
      · intro h; omega
      · intro hji
        constructor
        · intro m hjm hmi
          by_cases hmi2 : m < i
          · exact (hcatch (by omega)).1 m hjm hmi2
          · push_neg at hmi2
            exact Hmk i (Or.inl hp) m hmi2 (by omega) (by omega)
        · intro hlt
          exact Hmk i (Or.inl hp) (i + PADs.length) (by omega) (by omega) hlt
      · intro h; omega
    have hne0 : text.drop i ≠ [] := drop_ne_nil text i (by omega)
    have hdd : (text.drop i).drop PADs.length = text.drop (i + PADs.length) := by
      rw [List.drop_drop]
    rw [encodeLoop_pad vocab enc text i j tokens false hj hp,
        specEncode_pad vocab enc (text.drop i) hne0 hp, htk, hdd]
    simp only [ih hinv']
    cases specEncode vocab enc (text.drop (i + PADs.length)) <;> simp
  | case2 i j tokens endString hj hp hnone =>
    intro hinv
    rcases hinv with ⟨hes, hjle, hile, hwin, hcatch, hieq⟩ | ⟨hj1, _⟩
    swap
    · omega
    obtain ⟨hdec, hlen7⟩ := prefix_drop_decomp PADs text i (by decide) hp
    have h7 : PADs.length = 7 := rfl
    have hne0 : text.drop i ≠ [] := drop_ne_nil text i (by omega)
    rw [encodeLoop_pad vocab enc text i j tokens endString hj hp,
        specEncode_pad vocab enc (text.drop i) hne0 hp, hnone]
    rfl
  | case3 i j tokens endString hj hnp he tk htk ih =>
    intro hinv
    rcases hinv with ⟨hes, hjle, hile, hwin, hcatch, hieq⟩ | ⟨hj1, _⟩
    swap
    · omega
    subst hes
    obtain ⟨hdec, hlen7⟩ := prefix_drop_decomp EOSs text i (by decide) he
    have h7 : EOSs.length = 7 := rfl
    have hij' : j < i + EOSs.length := by
      rcases lt_trichotomy i j with h | h | h
      · rcases (hwin h).2 with ⟨_, hne'⟩ | hj1
        · exact absurd he hne'
        · omega
      · omega
      · omega
    have hinv' : LoopInv vocab text (i + EOSs.length) j false := by
      left
      refine ⟨rfl, hjle, hlen7, ?_, ?_, ?_⟩
      · intro h; omega
      · intro hji
        constructor
        · intro m hjm hmi
          by_cases hmi2 : m < i
          · exact (hcatch (by omega)).1 m hjm hmi2
          · push_neg at hmi2
            exact Hmk i (Or.inr he) m hmi2 (by omega) (by omega)
        · intro hlt
          exact Hmk i (Or.inr he) (i + EOSs.length) (by omega) (by omega) hlt
      · intro h; omega
    have hne0 : text.drop i ≠ [] := drop_ne_nil text i (by omega)
    have hdd : (text.drop i).drop EOSs.length = text.drop (i + EOSs.length) := by
      rw [List.drop_drop]
    rw [encodeLoop_eos vocab enc text i j tokens false hj hnp he,
        specEncode_eos vocab enc (text.drop i) hne0 hnp he, htk, hdd]
    simp only [ih hinv']
    cases specEncode vocab enc (text.drop (i + EOSs.length)) <;> simp
  | case4 i j tokens endString hj hnp he hnone =>
    intro hinv
    rcases hinv with ⟨hes, hjle, hile, hwin, hcatch, hieq⟩ | ⟨hj1, _⟩
    swap
    · omega
    obtain ⟨hdec, hlen7⟩ := prefix_drop_decomp EOSs text i (by decide) he
    have h7 : EOSs.length = 7 := rfl
    have hne0 : text.drop i ≠ [] := drop_ne_nil text i (by omega)
    rw [encodeLoop_eos vocab enc text i j tokens endString hj hnp he,
        specEncode_eos vocab enc (text.drop i) hne0 hnp he, hnone]
    rfl
  | case5 i j tokens endString hj hnp hne currWord nextChar endString' hcond tk htk ih =>
    intro hinv
    rcases hinv with ⟨hes, hjle, hile, hwin, hcatch, hieq⟩ | ⟨hj1, _⟩
    swap
    · omega
    subst hes
    have htk' : (match alookup enc (pySlice text i j) with
                 | some t => some t
                 | none => alookup enc UNKs) = some tk := htk
    by_cases hjl : j < text.length
    case pos =>
      have hes' : endString' = false := by
        show (if h : j < text.length then false else true) = false
        rw [dif_pos hjl]
      rw [hes'] at ih
      have hnone : (alookup vocab (pySlice text i j ++ charAt text j)).isNone = true := by
        rcases hcond.2 with h | h
        · exact h
        · rw [hes'] at h; cases h
      have hij : i < j := by
        rcases lt_trichotomy i j with h | h | h
        · exact h
        · exfalso
          have hcand : pySlice text i j ++ charAt text j = charAt text j := by
            rw [pySlice_eq_nil_of_le text i j (le_of_eq h.symm)]; rfl
          rw [hcand] at hnone
          rcases Nat.eq_zero_or_pos i with h0 | h0
          · have hj0 : j = 0 := by omega
            subst hj0
            exact isSome_isNone_absurd _ hnone (Hstart (by omega))
          · rw [← h] at hnone
            exact isSome_isNone_absurd _ hnone (hieq h h0 (by omega))
        · exfalso
          have hcand : pySlice text i j ++ charAt text j = charAt text j := by
            rw [pySlice_eq_nil_of_le text i j (le_of_lt h)]; rfl
          rw [hcand] at hnone
          exact isSome_isNone_absurd _ hnone ((hcatch h).1 j (le_refl j) h)
      obtain ⟨hwin1, _⟩ := hwin hij
      have hstop : j = text.length ∨ (alookup vocab (pySlice text i (j + 1))).isSome = false := by
        right
        rw [pySlice_succ_right text i j (le_of_lt hij) hjl]
        cases halo : alookup vocab (pySlice text i j ++ charAt text j)
        · rfl
        · rw [halo] at hnone; cases hnone
      have hinv' : LoopInv vocab text j (j + 1) false := by
        left
        refine ⟨rfl, by omega, by omega, ?_, ?_, ?_⟩
        · intro _
          exact ⟨fun m hm1 hm2 => by omega, Or.inr rfl⟩
        · intro h; omega
        · intro h; omega
      have hcondP : pySlice text i j ++ charAt text j ≠ [] ∧
          ((alookup vocab (pySlice text i j ++ charAt text j)).isNone = true ∨
            (false : Bool) = true) := ⟨hcond.1, Or.inl hnone⟩
      rw [encodeLoop_main vocab enc text i j tokens false hj hnp hne, if_pos hjl,
          if_pos hcondP, htk',
          specEncode_emission vocab enc text i j hij hj hwin1 hnp hne hstop, htk']
      show encodeLoop vocab enc text j (j + 1) (tokens ++ [tk]) false =
        ((specEncode vocab enc (text.drop j)).map (fun r => tk :: r)).map (fun r => tokens ++ r)
      rw [ih hinv']
      cases specEncode vocab enc (text.drop j) <;> simp
    case neg =>
      have hjlen : j = text.length := by omega
      have hes' : endString' = true := by
        show (if h : j < text.length then false else true) = true
        rw [dif_neg hjl]
      rw [hes'] at ih
      have hca : charAt text j = [] := charAt_eq_nil text j (by omega)
      have hcw1 : pySlice text i j ++ charAt text j ≠ [] := hcond.1
      rw [hca, List.append_nil] at hcw1
      have hij : i < j := by
        rcases lt_trichotomy i j with h | h | h
        · exact h
        · exact absurd (pySlice_eq_nil_of_le text i j (le_of_eq h.symm)) hcw1
        · omega
      obtain ⟨hwin1, _⟩ := hwin hij
      have hstop : j = text.length ∨ (alookup vocab (pySlice text i (j + 1))).isSome = false :=
        Or.inl hjlen
      have hinv' : LoopInv vocab text j (j + 1) true := Or.inr ⟨by omega, by omega⟩
      have hcondP : pySlice text i j ++ charAt text j ≠ [] ∧
          ((alookup vocab (pySlice text i j ++ charAt text j)).isNone = true ∨
            (true : Bool) = true) := ⟨hcond.1, Or.inr rfl⟩
      rw [encodeLoop_main vocab enc text i j tokens false hj hnp hne, if_neg hjl,
          if_pos hcondP, htk',
          specEncode_emission vocab enc text i j hij hj hwin1 hnp hne hstop, htk']
      show encodeLoop vocab enc text j (j + 1) (tokens ++ [tk]) true =
        ((specEncode vocab enc (text.drop j)).map (fun r => tk :: r)).map (fun r => tokens ++ r)
      rw [ih hinv']
      cases specEncode vocab enc (text.drop j) <;> simp
  | case6 i j tokens endString hj hnp hne currWord nextChar endString' hcond htk =>
    intro hinv
    rcases hinv with ⟨hes, hjle, hile, hwin, hcatch, hieq⟩ | ⟨hj1, _⟩
    swap
    · omega
    subst hes
    have htk' : (match alookup enc (pySlice text i j) with
                 | some t => some t
                 | none => alookup enc UNKs) = none := htk
    by_cases hjl : j < text.length
    case pos =>
      have hnone : (alookup vocab (pySlice text i j ++ charAt text j)).isNone = true := by
        rcases hcond.2 with h | h
        · exact h
        · have hes' : endString' = false := by
            show (if h : j < text.length then false else true) = false
            rw [dif_pos hjl]
          rw [hes'] at h; cases h
      have hij : i < j := by
        rcases lt_trichotomy i j with h | h | h
        · exact h
        · exfalso
          have hcand : pySlice text i j ++ charAt text j = charAt text j := by
            rw [pySlice_eq_nil_of_le text i j (le_of_eq h.symm)]; rfl
          rw [hcand] at hnone
          rcases Nat.eq_zero_or_pos i with h0 | h0
          · have hj0 : j = 0 := by omega
            subst hj0
            exact isSome_isNone_absurd _ hnone (Hstart (by omega))
          · rw [← h] at hnone
            exact isSome_isNone_absurd _ hnone (hieq h h0 (by omega))
        · exfalso
          have hcand : pySlice text i j ++ charAt text j = charAt text j := by
            rw [pySlice_eq_nil_of_le text i j (le_of_lt h)]; rfl
          rw [hcand] at hnone
          exact isSome_isNone_absurd _ hnone ((hcatch h).1 j (le_refl j) h)
      obtain ⟨hwin1, _⟩ := hwin hij
      have hstop : j = text.length ∨ (alookup vocab (pySlice text i (j + 1))).isSome = false := by
        right
        rw [pySlice_succ_right text i j (le_of_lt hij) hjl]
        cases halo : alookup vocab (pySlice text i j ++ charAt text j)
        · rfl
        · rw [halo] at hnone; cases hnone
      have hcondP : pySlice text i j ++ charAt text j ≠ [] ∧
          ((alookup vocab (pySlice text i j ++ charAt text j)).isNone = true ∨
            (false : Bool) = true) := ⟨hcond.1, Or.inl hnone⟩
      rw [encodeLoop_main vocab enc text i j tokens false hj hnp hne, if_pos hjl,
          if_pos hcondP, htk',
          specEncode_emission vocab enc text i j hij hj hwin1 hnp hne hstop, htk']
      rfl
    case neg =>
      have hjlen : j = text.length := by omega
      have hca : charAt text j = [] := charAt_eq_nil text j (by omega)
      have hcw1 : pySlice text i j ++ charAt text j ≠ [] := hcond.1
      rw [hca, List.append_nil] at hcw1
      have hij : i < j := by
        rcases lt_trichotomy i j with h | h | h
        · exact h
        · exact absurd (pySlice_eq_nil_of_le text i j (le_of_eq h.symm)) hcw1
        · omega
      obtain ⟨hwin1, _⟩ := hwin hij
      have hstop : j = text.length ∨ (alookup vocab (pySlice text i (j + 1))).isSome = false :=
        Or.inl hjlen
      have hcondP : pySlice text i j ++ charAt text j ≠ [] ∧
          ((alookup vocab (pySlice text i j ++ charAt text j)).isNone = true ∨
            (true : Bool) = true) := ⟨hcond.1, Or.inr rfl⟩
      rw [encodeLoop_main vocab enc text i j tokens false hj hnp hne, if_neg hjl,
          if_pos hcondP, htk',
          specEncode_emission vocab enc text i j hij hj hwin1 hnp hne hstop, htk']
      rfl
  | case7 i j tokens endString hj hnp hne currWord nextChar endString' hcond ih =>
    intro hinv
    rcases hinv with ⟨hes, hjle, hile, hwin, hcatch, hieq⟩ | ⟨hj1, _⟩
    swap
    · omega
    subst hes
    by_cases hjl : j < text.length
    case pos =>
      have hes' : endString' = false := by
        show (if h : j < text.length then false else true) = false
        rw [dif_pos hjl]
      rw [hes'] at ih
      have hsome : (alookup vocab (pySlice text i j ++ charAt text j)).isSome = true := by
        by_contra hc
        apply hcond
        constructor
        · show currWord ++ nextChar ≠ []
          intro hnil
          have hcc : pySlice text i j ++ charAt text j = [] := hnil
          rcases List.append_eq_nil.mp hcc with ⟨_, h2⟩
          exact charAt_ne_nil text j hjl h2
        · left
          show (alookup vocab (pySlice text i j ++ charAt text j)).isNone = true
          cases halo : alookup vocab (pySlice text i j ++ charAt text j)
          · rfl
          · exfalso; apply hc; rw [halo]; rfl
      have hinv' : LoopInv vocab text i (j + 1) false := by
        left
        refine ⟨rfl, by omega, hile, ?_, ?_, ?_⟩
        · intro hij1
          rcases lt_trichotomy i j with h | h | h
          · obtain ⟨hw1, hw2⟩ := hwin h
            constructor
            · intro m hm1 hm2
              by_cases hmj : m ≤ j
              · exact hw1 m hm1 hmj
              · have hmj1 : m = j + 1 := by omega
                subst hmj1
                rw [pySlice_succ_right text i j (le_of_lt h) hjl]
                exact hsome
            · left
              exact ⟨hnp, hne⟩
          · constructor
            · intro m hm1 hm2; omega
            · right; omega
          · omega
        · intro hji1
          obtain ⟨hc1, hc2⟩ := hcatch (by omega)
          exact ⟨fun m hm1 hm2 => hc1 m (by omega) hm2, hc2⟩
        · intro heq h0 hlen
          exact (hcatch (by omega)).2 hlen
      have hcondN : ¬(pySlice text i j ++ charAt text j ≠ [] ∧
          ((alookup vocab (pySlice text i j ++ charAt text j)).isNone = true ∨
            (false : Bool) = true)) := by
        rintro ⟨h1, h2 | h2⟩
        · exact isSome_isNone_absurd _ h2 hsome
        · cases h2
      rw [encodeLoop_main vocab enc text i j tokens false hj hnp hne, if_pos hjl,
          if_neg hcondN]
      exact ih hinv'
    case neg =>
      have hjlen : j = text.length := by omega
      have hes' : endString' = true := by
        show (if h : j < text.length then false else true) = true
        rw [dif_neg hjl]
      rw [hes'] at ih
      have hca : charAt text j = [] := charAt_eq_nil text j (by omega)
      have hcand : pySlice text i j = [] := by
        by_contra hc
        apply hcond
        constructor
        · show currWord ++ nextChar ≠ []
          intro hnil
          have hcc : pySlice text i j ++ charAt text j = [] := hnil
          rcases List.append_eq_nil.mp hcc with ⟨h1, _⟩
          exact hc h1
        · exact Or.inr hes'
      have hieq2 : i = text.length := by
        rcases pySlice_eq_nil_cases text i j hcand with h | h <;> omega
      have hinv' : LoopInv vocab text i (j + 1) true := Or.inr ⟨by omega, hieq2⟩
      have hcondN : ¬(pySlice text i j ++ charAt text j ≠ [] ∧
          ((alookup vocab (pySlice text i j ++ charAt text j)).isNone = true ∨
            (true : Bool) = true)) := by
        rintro ⟨h1, _⟩
        rw [hcand, hca] at h1
        exact h1 rfl
      rw [encodeLoop_main vocab enc text i j tokens false hj hnp hne, if_neg hjl,
          if_neg hcondN]
      exact ih hinv'
  | case8 i j tokens endString hj =>
    intro hinv
    rcases hinv with ⟨hes, hjle, hile, hwin, hcatch, hieq⟩ | ⟨hj1, hi⟩
    · omega
    subst hi
    rw [encodeLoop_exit vocab enc text (text.length) j tokens endString hj,
        List.drop_length, specEncode_nil]
    simp

/-! ### Decoding and greedy-window lemmas -/

theorem decode_nil (dec : List (Int × Str)) : decode dec [] = some [] := rfl

theorem decode_cons (dec : List (Int × Str)) (n : Int) (tks : List Int) (s : Str) (t' : Str)
    (hs : alookup dec n = some s) (h : decode dec tks = some t') :
    decode dec (n :: tks) = some (s ++ t') := by
  unfold decode at h ⊢
  cases hch : decodeChunks dec tks with
  | none => rw [hch] at h; cases h
  | some chunks =>
    rw [hch] at h
    have hfl : chunks.flatten = t' := by simpa using h
    simp only [decodeChunks, hs, hch]
    simp [hfl]

/-- Either the greedy scan never moved, or the segment it certifies is a vocab
key. -/
theorem grabLen_self_or_isSome (vocab : Vocab) (t : List Char) (k : Nat) :
    grabLen vocab t k = k ∨ (alookup vocab (t.take (grabLen vocab t k))).isSome = true := by
  have H : ∀ n k, t.length - k ≤ n →
      grabLen vocab t k = k ∨ (alookup vocab (t.take (grabLen vocab t k))).isSome = true := by
    intro n
    induction n with
    | zero =>
      intro k hn
      left
      rw [grabLen, if_neg]
      rintro ⟨h1, _⟩
      omega
    | succ n ih =>
      intro k hn
      by_cases hc : k < t.length ∧ (alookup vocab (t.take (k + 1))).isSome = true
      · rw [grabLen, if_pos hc]
        rcases ih (k + 1) (by omega) with h | h
        · right; rw [h]; exact hc.2
        · right; exact h
      · left; rw [grabLen, if_neg hc]
  exact H t.length k (by omega)

/-- Every extension the greedy scan passed through is a vocab key. -/
theorem grabLen_window (vocab : Vocab) (t : List Char) :
    ∀ k m, k < m → m ≤ grabLen vocab t k → (alookup vocab (t.take m)).isSome = true := by
  have H : ∀ n k m, t.length - k ≤ n → k < m → m ≤ grabLen vocab t k →
      (alookup vocab (t.take m)).isSome = true := by
    intro n
    induction n with
    | zero =>
      intro k m hn hkm hm
      rw [grabLen, if_neg (by rintro ⟨h1, _⟩; omega)] at hm
      omega
    | succ n ih =>
      intro k m hn hkm hm
      by_cases hc : k < t.length ∧ (alookup vocab (t.take (k + 1))).isSome = true
      · rw [grabLen, if_pos hc] at hm
        by_cases hm1 : m = k + 1
        · subst hm1; exact hc.2
        · exact ih (k + 1) m (by omega) (by omega) hm
      · rw [grabLen, if_neg hc] at hm
        omega
  intro k m
  exact H t.length k m (by omega)

/-- The greedy scan stops only when it cannot extend. -/
theorem grabLen_stopped (vocab : Vocab) (t : List Char) (k : Nat) :
    ¬(grabLen vocab t k < t.length ∧
      (alookup vocab (t.take (grabLen vocab t k + 1))).isSome = true) := by
  have H : ∀ n k, t.length - k ≤ n →
      ¬(grabLen vocab t k < t.length ∧
        (alookup vocab (t.take (grabLen vocab t k + 1))).isSome = true) := by
    intro n
    induction n with
    | zero =>
      intro k hn
      rw [grabLen, if_neg (by rintro ⟨h1, _⟩; omega)]
      rintro ⟨h1, _⟩
      omega
    | succ n ih =>
      intro k hn
      by_cases hc : k < t.length ∧ (alookup vocab (t.take (k + 1))).isSome = true
      · rw [grabLen, if_pos hc]
        exact ih (k + 1) (by omega)
      · rw [grabLen, if_neg hc]
        exact hc
  exact H t.length k (by omega)

/-- Round trip at the reference level: on text made of vocab symbols, decoding
the greedy encoding recovers the text. -/
theorem specEncode_roundtrip (vocab : Vocab) (hnd : (dkeys vocab).Nodup) (t : List Char) :
    (∀ c ∈ t, [c] ∈ dkeys vocab) →
    ∃ tks, specEncode vocab (rebuildTokenDict vocab).1 t = some tks ∧
      decode (rebuildTokenDict vocab).2 tks = some t := by
  obtain ⟨hP, hU, hS, hE, hP', hU', hS', hE'⟩ := rebuild_specials vocab
  induction t using specEncode.induct vocab (rebuildTokenDict vocab).1 with
  | case1 =>
    intro _
    exact ⟨[], specEncode_nil _ _, rfl⟩
  | case2 t ht hp tk htk ih =>
    intro H
    obtain rfl : tk = 0 := by rw [hP] at htk; simpa using htk.symm
    have hdec : t = PADs ++ t.drop PADs.length := by
      have := (prefix_drop_decomp PADs t 0 (by decide) (by simpa using hp)).1
      simpa using this
    obtain ⟨tks', h1, h2⟩ := ih (fun c hc => H c (List.mem_of_mem_drop hc))
    refine ⟨0 :: tks', ?_, ?_⟩
    · rw [specEncode_pad _ _ _ ht hp, hP, h1]
      rfl
    · rw [decode_cons _ _ _ _ _ hP' h2]
      rw [← hdec]
  | case3 t ht hp htk =>
    intro H
    rw [hP] at htk
    cases htk
  | case4 t ht hnp he tk htk ih =>
    intro H
    obtain rfl : tk = -2 := by rw [hE] at htk; simpa using htk.symm
    have hdec : t = EOSs ++ t.drop EOSs.length := by
      have := (prefix_drop_decomp EOSs t 0 (by decide) (by simpa using he)).1
      simpa using this
    obtain ⟨tks', h1, h2⟩ := ih (fun c hc => H c (List.mem_of_mem_drop hc))
    refine ⟨-2 :: tks', ?_, ?_⟩
    · rw [specEncode_eos _ _ _ ht hnp he, hE, h1]
      rfl
    · rw [decode_cons _ _ _ _ _ hE' h2]
      rw [← hdec]
  | case5 t ht hnp he htk =>
    intro H
    rw [hE] at htk
    cases htk
  | case6 t ht hnp hne tk htk ih =>
    intro H
    have hklen : 1 ≤ t.length := by
      cases t with
      | nil => exact absurd rfl ht
      | cons a l => simp
    have hseg : t.take (grabLen vocab t 1) ∈ dkeys vocab := by
      rcases grabLen_self_or_isSome vocab t 1 with h | h
      · rw [h]
        cases t with
        | nil => exact absurd rfl ht
        | cons a l =>
          simpa using H a (List.mem_cons_self a l)
      · exact (alookup_isSome_iff vocab _).mp h
    obtain ⟨n, henc, hdecn⟩ := rebuild_mem_inv vocab hnd _ hseg
    obtain rfl : tk = n := by
      rw [henc] at htk
      simpa using htk.symm
    obtain ⟨tks', h1, h2⟩ := ih (fun c hc => H c (List.mem_of_mem_drop hc))
    refine ⟨tk :: tks', ?_, ?_⟩
    · rw [specEncode_grab _ _ _ ht hnp hne, henc, h1]
      rfl
    · rw [decode_cons _ _ _ _ _ hdecn h2]
      rw [List.take_append_drop]
  | case7 t ht hnp hne htk =>
    intro H
    cases halo : alookup (rebuildTokenDict vocab).1 (t.take (grabLen vocab t 1)) with
    | some n => rw [halo] at htk; cases htk
    | none =>
      rw [halo] at htk
      rw [hU] at htk
      cases htk

theorem charAt_isSome_of_mem (vocab : Vocab) (t : List Char) (q : Nat) (hq : q < t.length)
    (H : ∀ c ∈ t, [c] ∈ dkeys vocab) : (alookup vocab (charAt t q)).isSome = true := by
  have hget : charAt t q = [t.get ⟨q, hq⟩] := by
    unfold charAt
    rw [List.drop_eq_getElem_cons hq]
    rfl
  rw [hget, alookup_isSome_iff]
  exact H _ (List.get_mem t q hq)

/-- The well-formed start state of the scan. -/
theorem LoopInv_start (vocab : Vocab) (text : List Char) : LoopInv vocab text 0 0 false := by
  left
  exact ⟨rfl, by omega, by omega,
    fun h => absurd h (by omega),
    fun h => absurd h (by omega),
    fun _ h0 => absurd h0 (by omega)⟩

/-- `encode` agrees with the reference greedy scan whenever the first
character and the characters in and right after each literal marker are
single-character vocab keys. -/
theorem encode_eq_specEncode (vocab : Vocab) (enc : List (Str × Int)) (text : List Char)
    (Hstart : 0 < text.length → (alookup vocab (charAt text 0)).isSome = true)
    (Hmk : ∀ p, (PADs.isPrefixOf (text.drop p) = true ∨ EOSs.isPrefixOf (text.drop p) = true) →
      ∀ q, p ≤ q → q < p + 8 → q < text.length → (alookup vocab (charAt text q)).isSome = true) :
    encode vocab enc text = specEncode vocab enc text := by
  unfold encode
  rw [encodeLoop_eq_specEncode vocab enc text Hstart Hmk 0 0 [] false (LoopInv_start vocab text)]
  rw [List.drop_zero]
  cases specEncode vocab enc text <;> simp

/-! ## Claim C1: round-trip fidelity for in-vocabulary text -/

/-- C1: for every text composed entirely of symbols present in the SymbolTable
(every character is a single-character key, e.g. text over the base alphabet),
`decode (encode text)` returns exactly the original text: greedy forward
segmentation followed by ID-to-symbol lookup concatenation is the identity on
in-vocabulary text. -/
theorem c1_roundtrip (vocab : Vocab) (text : List Char)
    (hnd : (dkeys vocab).Nodup)
    (H : ∀ c ∈ text, [c] ∈ dkeys vocab) :
    (encode vocab (rebuildTokenDict vocab).1 text).bind
      (fun tks => decode (rebuildTokenDict vocab).2 tks) = some text := by
  obtain ⟨tks, h1, h2⟩ := specEncode_roundtrip vocab hnd text H
  rw [encode_eq_specEncode vocab _ text
      (fun h => charAt_isSome_of_mem vocab text 0 h H)
      (fun p _ q _ _ hq => charAt_isSome_of_mem vocab text q hq H), h1]
  simpa using h2

/-- Witness for C1: the default table with the text "ab". -/
theorem c1_roundtrip_witness :
    (dkeys initVocab).Nodup ∧ (∀ c ∈ "ab".data, [c] ∈ dkeys initVocab) ∧
    (encode initVocab (rebuildTokenDict initVocab).1 "ab".data).bind
      (fun tks => decode (rebuildTokenDict initVocab).2 tks) = some "ab".data :=
  ⟨by decide, by decide, c1_roundtrip initVocab "ab".data (by decide) (by decide)⟩

/-- When no multi-character vocab key contains '<' and the continuation `X`
opens with '<', the greedy scan over `pre ++ X` processes `pre` exactly as it
would alone, then continues with `X`: no vocab symbol and no marker test can
cross the boundary. -/
theorem specEncode_append_boundary (vocab : Vocab) (enc : List (Str × Int)) (X : List Char)
    (hX : X.head? = some '<')
    (hb : ∀ s ∈ dkeys vocab, '<' ∉ s.drop 1) :
    ∀ pre : List Char,
    specEncode vocab enc (pre ++ X) =
      (specEncode vocab enc pre).bind
        (fun a => (specEncode vocab enc X).map (fun b => a ++ b)) := by
  have H : ∀ n pre, List.length pre ≤ n →
      specEncode vocab enc (pre ++ X) =
        (specEncode vocab enc pre).bind
          (fun a => (specEncode vocab enc X).map (fun b => a ++ b)) := by
    intro n
    induction n with
    | zero =>
      intro pre hlen
      have hpre : pre = [] := List.length_eq_zero.mp (by omega)
      subst hpre
      rw [List.nil_append, specEncode_nil]
      cases hsx : specEncode vocab enc X <;> simp
    | succ n ih =>
      intro pre hlen
      by_cases hpre : pre = []
      · subst hpre
        rw [List.nil_append, specEncode_nil]
        cases hsx : specEncode vocab enc X <;> simp
      · have hpne : pre ++ X ≠ [] := by
          intro hc; rcases List.append_eq_nil.mp hc with ⟨h1, _⟩; exact hpre h1
        have hrhead : X = [] ∨ X.head? = some '<' := Or.inr hX
        by_cases hpp : PADs.isPrefixOf pre = true
        · have hpp2 : PADs.isPrefixOf (pre ++ X) = true := by
            rw [List.isPrefixOf_iff_prefix] at hpp ⊢
            exact hpp.trans (List.prefix_append pre X)
          have h7le : PADs.length ≤ pre.length :=
            (List.isPrefixOf_iff_prefix.mp hpp).length_le
          have hdropapp : (pre ++ X).drop PADs.length = pre.drop PADs.length ++ X :=
            List.drop_append_of_le_length h7le
          rw [specEncode_pad vocab enc (pre ++ X) hpne hpp2,
              specEncode_pad vocab enc pre hpre hpp, hdropapp,
              ih (pre.drop PADs.length) (by have h7 : PADs.length = 7 := rfl; simp only [List.length_drop]; omega)]
          cases alookup enc PADs with
          | none => rfl
          | some tk =>
            cases specEncode vocab enc (pre.drop PADs.length) with
            | none => rfl
            | some a =>
              cases specEncode vocab enc X <;> simp
        · have hpp2 : ¬(PADs.isPrefixOf (pre ++ X) = true) := by
            intro hc
            exact hpp (marker_isPrefixOf_append PADs pre X (Or.inl rfl) hpre hrhead hc)
          by_cases hpe : EOSs.isPrefixOf pre = true
          · have hpe2 : EOSs.isPrefixOf (pre ++ X) = true := by
              rw [List.isPrefixOf_iff_prefix] at hpe ⊢
              exact hpe.trans (List.prefix_append pre X)
            have h7le : EOSs.length ≤ pre.length :=
              (List.isPrefixOf_iff_prefix.mp hpe).length_le
            have hdropapp : (pre ++ X).drop EOSs.length = pre.drop EOSs.length ++ X :=
              List.drop_append_of_le_length h7le
            rw [specEncode_eos vocab enc (pre ++ X) hpne hpp2 hpe2,
                specEncode_eos vocab enc pre hpre hpp hpe, hdropapp,
                ih (pre.drop EOSs.length) (by have h7 : EOSs.length = 7 := rfl; simp only [List.length_drop]; omega)]
            cases alookup enc EOSs with
            | none => rfl
            | some tk =>
              cases specEncode vocab enc (pre.drop EOSs.length) with
              | none => rfl
              | some a =>
                cases specEncode vocab enc X <;> simp
          · have hpe2 : ¬(EOSs.isPrefixOf (pre ++ X) = true) := by
              intro hc
              exact hpe (marker_isPrefixOf_append EOSs pre X (Or.inr rfl) hpre hrhead hc)
            have hplen : 1 ≤ pre.length := by
              cases pre with
              | nil => exact absurd rfl hpre
              | cons a l => simp
            have hk1 : 1 ≤ grabLen vocab pre 1 := grabLen_ge vocab pre 1
            have hkle : grabLen vocab pre 1 ≤ pre.length := grabLen_le vocab pre 1 hplen
            have hgl2 : grabLen vocab (pre ++ X) 1 = grabLen vocab pre 1 := by
              apply grabLen_eq
              · exact hk1
              · simp only [List.length_append]; omega
              · intro m h1m hmk
                rw [List.take_append_of_le_length (by omega)]
                exact grabLen_window vocab pre 1 m (by omega) (by omega)
              · right
                rcases Nat.lt_or_ge (grabLen vocab pre 1) pre.length with hkp | hkp
                · rw [List.take_append_of_le_length (by omega)]
                  cases halo : (alookup vocab (pre.take (grabLen vocab pre 1 + 1))).isSome
                  · rfl
                  · exact absurd ⟨hkp, halo⟩ (grabLen_stopped vocab pre 1)
                · have hkeq : grabLen vocab pre 1 = pre.length := by omega
                  obtain ⟨Xt, rfl⟩ : ∃ Xt, X = '<' :: Xt := by
                    cases X with
                    | nil => cases hX
                    | cons a l =>
                      have : a = '<' := by simpa using hX
                      exact ⟨l, by rw [this]⟩
                  have htake : (pre ++ '<' :: Xt).take (grabLen vocab pre 1 + 1) =
                      pre ++ ['<'] := by
                    rw [hkeq]
                    have : pre.length + 1 = pre.length + 1 := rfl
                    rw [show pre.length + 1 = pre.length + 1 from rfl]
                    rw [List.take_append]
                    rfl
                  rw [htake]
                  cases halo : (alookup vocab (pre ++ ['<'])).isSome
                  · rfl
                  · exfalso
                    have hmem := (alookup_isSome_iff vocab (pre ++ ['<'])).mp halo
                    apply hb (pre ++ ['<']) hmem
                    rw [List.drop_append_of_le_length hplen]
                    exact List.mem_append_right _ (List.mem_singleton.mpr rfl)
            rw [specEncode_grab vocab enc (pre ++ X) hpne hpp2 hpe2,
                specEncode_grab vocab enc pre hpre hpp hpe, hgl2,
                List.take_append_of_le_length hkle, List.drop_append_of_le_length hkle,
                ih (pre.drop (grabLen vocab pre 1)) (by simp only [List.length_drop]; omega)]
            cases htok : (match alookup enc (pre.take (grabLen vocab pre 1)) with
                          | some tk => some tk
                          | none => alookup enc UNKs) with
            | none => rfl
            | some tk =>
              cases specEncode vocab enc (pre.drop (grabLen vocab pre 1)) with
              | none => rfl
              | some a =>
                cases specEncode vocab enc X <;> simp
  intro pre
  exact H pre.length pre (le_refl _)

theorem specEncode_pad_head (vocab : Vocab) (enc : List (Str × Int)) (post : List Char) :
    specEncode vocab enc (PADs ++ post) =
      match alookup enc PADs with
      | some tk => (specEncode vocab enc post).map (fun r => tk :: r)
      | none => none := by
  have hne : PADs ++ post ≠ [] := by
    intro hc; rcases List.append_eq_nil.mp hc with ⟨h1, _⟩; cases h1
  have hp : PADs.isPrefixOf (PADs ++ post) = true :=
    List.isPrefixOf_iff_prefix.mpr (List.prefix_append _ _)
  rw [specEncode_pad vocab enc _ hne hp, List.drop_left]

theorem specEncode_eos_head (vocab : Vocab) (enc : List (Str × Int)) (post : List Char) :
    specEncode vocab enc (EOSs ++ post) =
      match alookup enc EOSs with
      | some tk => (specEncode vocab enc post).map (fun r => tk :: r)
      | none => none := by
  have hne : EOSs ++ post ≠ [] := by
    intro hc; rcases List.append_eq_nil.mp hc with ⟨h1, _⟩; cases h1
  have hnp : ¬(PADs.isPrefixOf (EOSs ++ post) = true) := by
    intro hc
    have hpref := List.isPrefixOf_iff_prefix.mp hc
    have heq : PADs = (EOSs ++ post).take PADs.length := List.prefix_iff_eq_take.mp hpref
    have h77 : (EOSs ++ post).take PADs.length = EOSs := by
      have h7 : PADs.length = EOSs.length := rfl
      rw [h7, List.take_left]
    rw [h77] at heq
    exact absurd heq (by decide)
  have he : EOSs.isPrefixOf (EOSs ++ post) = true :=
    List.isPrefixOf_iff_prefix.mpr (List.prefix_append _ _)
  rw [specEncode_eos vocab enc _ hne hnp he, List.drop_left]

/-! ## Claim C6 (amended): literal marker interception -/

/-- C6 (amended): provided no table symbol contains '<' after its first
character (so no learned symbol can span from before a marker into it; the
four reserved marker strings themselves are fine) and the surrounding
characters are single-character table symbols, encoding
`pre ++ "<|EOS|>" ++ post` emits the reserved EOS ID (-2) exactly between the
encodings of `pre` and `post`, consuming the marker whole; likewise the
literal PAD marker yields its reserved ID 0. -/
theorem c6_marker_interception (vocab : Vocab) (pre post : List Char)
    (hnd : (dkeys vocab).Nodup)
    (hb : ∀ s ∈ dkeys vocab, '<' ∉ s.drop 1)
    (Hpre : ∀ c ∈ pre, [c] ∈ dkeys vocab) (Hpost : ∀ c ∈ post, [c] ∈ dkeys vocab)
    (Hmkc : ∀ c ∈ PADs ++ EOSs, [c] ∈ dkeys vocab) :
    (∃ a b, encode vocab (rebuildTokenDict vocab).1 pre = some a ∧
       encode vocab (rebuildTokenDict vocab).1 post = some b ∧
       encode vocab (rebuildTokenDict vocab).1 (pre ++ EOSs ++ post) =
         some (a ++ [-2] ++ b)) ∧
    (∃ a b, encode vocab (rebuildTokenDict vocab).1 pre = some a ∧
       encode vocab (rebuildTokenDict vocab).1 post = some b ∧
       encode vocab (rebuildTokenDict vocab).1 (pre ++ PADs ++ post) =
         some (a ++ [0] ++ b)) := by
  obtain ⟨hP, hU, hS, hE, _, _, _, _⟩ := rebuild_specials vocab
  obtain ⟨a, ha, _⟩ := specEncode_roundtrip vocab hnd pre Hpre
  obtain ⟨b, hbb, _⟩ := specEncode_roundtrip vocab hnd post Hpost
  have hencpre : encode vocab (rebuildTokenDict vocab).1 pre = some a := by
    rw [encode_eq_specEncode vocab _ pre (fun h => charAt_isSome_of_mem vocab pre 0 h Hpre)
        (fun p _ q _ _ hq => charAt_isSome_of_mem vocab pre q hq Hpre)]
    exact ha
  have hencpost : encode vocab (rebuildTokenDict vocab).1 post = some b := by
    rw [encode_eq_specEncode vocab _ post (fun h => charAt_isSome_of_mem vocab post 0 h Hpost)
        (fun p _ q _ _ hq => charAt_isSome_of_mem vocab post q hq Hpost)]
    exact hbb
  constructor
  · have hEfull : ∀ c ∈ pre ++ EOSs ++ post, [c] ∈ dkeys vocab := by
      intro c hc
      rcases List.mem_append.mp hc with hc | hc
      · rcases List.mem_append.mp hc with hc | hc
        · exact Hpre c hc
        · exact Hmkc c (List.mem_append_right _ hc)
      · exact Hpost c hc
    refine ⟨a, b, hencpre, hencpost, ?_⟩
    rw [encode_eq_specEncode vocab _ (pre ++ EOSs ++ post)
        (fun h => charAt_isSome_of_mem vocab _ 0 h hEfull)
        (fun p _ q _ _ hq => charAt_isSome_of_mem vocab _ q hq hEfull)]
    rw [List.append_assoc]
    rw [specEncode_append_boundary vocab _ (EOSs ++ post) rfl hb pre]
    simp only [specEncode_eos_head, hE, ha, hbb]
    simp
  · have hPfull : ∀ c ∈ pre ++ PADs ++ post, [c] ∈ dkeys vocab := by
      intro c hc
      rcases List.mem_append.mp hc with hc | hc
      · rcases List.mem_append.mp hc with hc | hc
        · exact Hpre c hc
        · exact Hmkc c (List.mem_append_left _ hc)
      · exact Hpost c hc
    refine ⟨a, b, hencpre, hencpost, ?_⟩
    rw [encode_eq_specEncode vocab _ (pre ++ PADs ++ post)
        (fun h => charAt_isSome_of_mem vocab _ 0 h hPfull)
        (fun p _ q _ _ hq => charAt_isSome_of_mem vocab _ q hq hPfull)]
    rw [List.append_assoc]
    rw [specEncode_append_boundary vocab _ (PADs ++ post) rfl hb pre]
    simp only [specEncode_pad_head, hP, ha, hbb]
    simp

/-! ### Fuel-indexed evaluation copy of the scan

The well-founded recursion `encodeLoop` does not reduce inside the kernel, so
concrete runs are evaluated through this fuel-indexed structural copy, proved
equal to `encodeLoop` whenever the fuel exceeds the loop measure. -/

def encodeLoopFuel (vocab : Vocab) (enc : List (Str × Int)) (text : List Char) :
    Nat → Nat → Nat → List Int → Bool → Option (List Int)
  | 0, _, _, _, _ => none
  | fuel + 1, i, j, tokens, endString =>
    if j ≤ text.length then
      if PADs.isPrefixOf (text.drop i) then
        match alookup enc PADs with
        | some tk =>
          encodeLoopFuel vocab enc text fuel (i + PADs.length) j (tokens ++ [tk]) endString
        | none => none
      else if EOSs.isPrefixOf (text.drop i) then
        match alookup enc EOSs with
        | some tk =>
          encodeLoopFuel vocab enc text fuel (i + EOSs.length) j (tokens ++ [tk]) endString
        | none => none
      else
        let currWord := pySlice text i j
        let nextChar := charAt text j
        let endString' := if j < text.length then endString else true
        if currWord ++ nextChar ≠ [] ∧
            ((alookup vocab (currWord ++ nextChar)).isNone = true ∨ endString' = true) then
          match (match alookup enc currWord with
                 | some tk => some tk
                 | none => alookup enc UNKs) with
          | some tk => encodeLoopFuel vocab enc text fuel j (j + 1) (tokens ++ [tk]) endString'
          | none => none
        else
          encodeLoopFuel vocab enc text fuel i (j + 1) tokens endString'
    else some tokens

theorem encodeLoopFuel_eq (vocab : Vocab) (enc : List (Str × Int)) (text : List Char) :
    ∀ fuel i j tokens endString,
    (text.length + 1 - j) * (text.length + 2) + (text.length - i) < fuel →
    encodeLoopFuel vocab enc text fuel i j tokens endString =
      encodeLoop vocab enc text i j tokens endString := by
  intro fuel
  induction fuel with
  | zero => intro i j tokens endString h; omega
  | succ fuel ih =>
    intro i j tokens endString h
    by_cases hj : j ≤ text.length
    · by_cases hp : PADs.isPrefixOf (text.drop i) = true
      · have hle := (prefix_drop_decomp PADs text i (by decide) hp).2
        have h7 : PADs.length = 7 := rfl
        rw [encodeLoop_pad vocab enc text i j tokens endString hj hp,
            encodeLoopFuel, if_pos hj, if_pos hp]
        cases alookup enc PADs with
        | none => rfl
        | some tk =>
          exact ih (i + PADs.length) j (tokens ++ [tk]) endString (by
            have hmono : (text.length + 1 - j) * (text.length + 2) + (text.length - (i + 7))
                < (text.length + 1 - j) * (text.length + 2) + (text.length - i) := by omega
            omega)
      · by_cases he : EOSs.isPrefixOf (text.drop i) = true
        · have hle := (prefix_drop_decomp EOSs text i (by decide) he).2
          have h7 : EOSs.length = 7 := rfl
          rw [encodeLoop_eos vocab enc text i j tokens endString hj hp he,
              encodeLoopFuel, if_pos hj, if_neg hp, if_pos he]
          cases alookup enc EOSs with
          | none => rfl
          | some tk =>
            exact ih (i + EOSs.length) j (tokens ++ [tk]) endString (by
              have hmono : (text.length + 1 - j) * (text.length + 2) + (text.length - (i + 7))
                  < (text.length + 1 - j) * (text.length + 2) + (text.length - i) := by omega
              omega)
        · rw [encodeLoop_main vocab enc text i j tokens endString hj hp he,
              encodeLoopFuel, if_pos hj, if_neg hp, if_neg he]
          have hmeas : ∀ i' : Nat, i' ≤ text.length →
              (text.length + 1 - (j + 1)) * (text.length + 2) + (text.length - i') < fuel := by
            intro i' hi'
            have h1 : text.length + 1 - (j + 1) = text.length - j := by omega
            have h2 : (text.length - j) * (text.length + 2) + (text.length + 2)
                = (text.length + 1 - j) * (text.length + 2) := by
              have h3 : text.length + 1 - j = (text.length - j) + 1 := by omega
              rw [h3]
              ring
            nlinarith [Nat.sub_le text.length i', Nat.sub_le text.length i]
          show (if pySlice text i j ++ charAt text j ≠ [] ∧
               ((alookup vocab (pySlice text i j ++ charAt text j)).isNone = true ∨
                 (if j < text.length then endString else true) = true) then
             match (match alookup enc (pySlice text i j) with
                    | some tk => some tk
                    | none => alookup enc UNKs) with
             | some tk => encodeLoopFuel vocab enc text fuel j (j + 1) (tokens ++ [tk])
                 (if j < text.length then endString else true)
             | none => none
           else encodeLoopFuel vocab enc text fuel i (j + 1) tokens
             (if j < text.length then endString else true)) = _
          by_cases hcond : pySlice text i j ++ charAt text j ≠ [] ∧
              ((alookup vocab (pySlice text i j ++ charAt text j)).isNone = true ∨
                (if j < text.length then endString else true) = true)
          · rw [if_pos hcond, if_pos hcond]
            cases htok : (match alookup enc (pySlice text i j) with
                          | some tk => some tk
                          | none => alookup enc UNKs) with
            | none => rfl
            | some tk =>
              exact ih j (j + 1) (tokens ++ [tk])
                (if j < text.length then endString else true) (hmeas j hj)
          · rw [if_neg hcond, if_neg hcond]
            exact ih i (j + 1) tokens (if j < text.length then endString else true)
              (by
                rcases le_or_lt i text.length with hi | hi
                · exact hmeas i hi
                · have hz : text.length - i = 0 := by omega
                  have := hmeas text.length (le_refl _)
                  omega)
    · rw [encodeLoop_exit vocab enc text i j tokens endString hj, encodeLoopFuel, if_neg hj]

/-- A table containing the learned symbol "a<" — reachable by ordinary
training on text containing "a<". -/
def adversarialVocab : Vocab := dictSet initVocab ['a', '<'] 1

/-- Counterexample to C6 as literally stated: with the learned symbol "a<" in
the table, encoding "a<|EOS|>b" emits no reserved EOS ID at all — the greedy
window consumes "a<", and the scan resumes inside the marker, segmenting its
characters one by one. -/
theorem c6_counterexample :
    encode adversarialVocab (rebuildTokenDict adversarialVocab).1 "a<|EOS|>b".data =
      some [96, 92, 31, 41, 45, 92, 82, 2] ∧
    (-2 : Int) ∉ [96, 92, 31, 41, 45, 92, 82, 2] := by
  constructor
  · rw [encode, ← encodeLoopFuel_eq adversarialVocab (rebuildTokenDict adversarialVocab).1
        "a<|EOS|>b".data 200 0 0 [] false (by decide)]
    decide
  · decide

/-- Witness for C6 (amended): the default table, pre = "x", post = "y". -/
theorem c6_marker_interception_witness :
    (dkeys initVocab).Nodup ∧ (∀ s ∈ dkeys initVocab, '<' ∉ s.drop 1) ∧
    ((∃ a b, encode initVocab (rebuildTokenDict initVocab).1 "x".data = some a ∧
       encode initVocab (rebuildTokenDict initVocab).1 "y".data = some b ∧
       encode initVocab (rebuildTokenDict initVocab).1 ("x".data ++ EOSs ++ "y".data) =
         some (a ++ [-2] ++ b)) ∧
     (∃ a b, encode initVocab (rebuildTokenDict initVocab).1 "x".data = some a ∧
       encode initVocab (rebuildTokenDict initVocab).1 "y".data = some b ∧
       encode initVocab (rebuildTokenDict initVocab).1 ("x".data ++ PADs ++ "y".data) =
         some (a ++ [0] ++ b))) := by
  refine ⟨by decide, by decide, ?_⟩
  exact c6_marker_interception initVocab "x".data "y".data (by decide) (by decide)
    (by decide) (by decide) (by decide)

/-! ## Claim C2: UNK substitution -/

/-- The numbering loop leaves keys outside the listed keys untouched. -/
theorem rebuildAssign_enc_notmem (ks : List Str) :
    ∀ (e : List (Str × Int)) (d : List (Int × Str)) (i : Int) (s : Str), s ∉ ks →
    alookup (rebuildAssign e d ks i).1 s = alookup e s := by
  induction ks with
  | nil => intro e d i s _; rfl
  | cons k ks ih =>
    intro e d i s hs
    have hsk : k ≠ s := fun hh => hs (hh ▸ List.mem_cons_self _ _)
    by_cases hk : isSpecial k
    · rw [rebuildAssign, if_pos hk, ih _ _ _ _ (fun hh => hs (List.mem_cons_of_mem _ hh))]
    · rw [rebuildAssign, if_neg hk, ih _ _ _ _ (fun hh => hs (List.mem_cons_of_mem _ hh))]
      exact alookup_dictSet_ne e k s i hsk

theorem isSpecial_singleton (c : Char) : isSpecial [c] = false := by
  rw [← Bool.not_eq_true]
  intro hc
  rcases (isSpecial_iff [c]).mp hc with h | h | h | h <;>
    · have hl := congrArg List.length h
      simp only [List.length_cons, List.length_nil] at hl
      exact absurd hl (by decide)

/-- A non-special symbol that is not a vocab key has no encoder entry. -/
theorem alookup_rebuild_notmem (vocab : Vocab) (s : Str)
    (hns : isSpecial s = false) (hnm : s ∉ dkeys vocab) :
    alookup (rebuildTokenDict vocab).1 s = none := by
  unfold rebuildTokenDict
  rw [rebuildAssign_enc_notmem (dkeys vocab) specialEnc specialDec 1 s hnm]
  exact alookup_specialEnc_none s hns

theorem grabLen_one_of_unknown (vocab : Vocab) (c : Char) (t2 : List Char)
    (hc : ∀ s ∈ dkeys vocab, c ∉ s) :
    grabLen vocab (c :: t2) 1 = 1 := by
  rw [grabLen, if_neg]
  rintro ⟨hlt, hsome⟩
  have hmem := (alookup_isSome_iff _ _).mp hsome
  apply hc _ hmem
  show c ∈ (c :: t2).take 2
  simp

/-- The input contains no literal PAD or EOS marker anywhere. -/
def markerFree (t : List Char) : Prop :=
  ∀ p, p < t.length →
    ¬(PADs.isPrefixOf (t.drop p) = true) ∧ ¬(EOSs.isPrefixOf (t.drop p) = true)

theorem markerFree_all (t : List Char) (h : markerFree t) (p : Nat) :
    ¬(PADs.isPrefixOf (t.drop p) = true) ∧ ¬(EOSs.isPrefixOf (t.drop p) = true) := by
  by_cases hp : p < t.length
  · exact h p hp
  · rw [List.drop_eq_nil_iff.mpr (by omega)]
    exact ⟨by decide, by decide⟩

theorem markerFree_drop (t : List Char) (k : Nat) (h : markerFree t) :
    markerFree (t.drop k) := by
  intro p hp
  rw [List.drop_drop]
  exact markerFree_all t h (k + p)

theorem markerFree_append_left (s X : List Char) (h : markerFree (s ++ X)) :
    markerFree s := by
  intro p hp
  have hd : (s ++ X).drop p = s.drop p ++ X := List.drop_append_of_le_length (by omega)
  have h2 := markerFree_all _ h p
  rw [hd] at h2
  constructor
  · intro hc
    exact h2.1 (List.isPrefixOf_iff_prefix.mpr
      ((List.isPrefixOf_iff_prefix.mp hc).trans (List.prefix_append _ _)))
  · intro hc
    exact h2.2 (List.isPrefixOf_iff_prefix.mpr
      ((List.isPrefixOf_iff_prefix.mp hc).trans (List.prefix_append _ _)))

/-- Greedy split around a character occurring in no vocab key, on marker-free
text: the scan processes `pre` exactly as it would alone. -/
theorem specEncode_unknown_split (vocab : Vocab) (enc : List (Str × Int)) (c : Char)
    (t2 : List Char) (hcn : ∀ s ∈ dkeys vocab, c ∉ s) :
    ∀ pre, markerFree (pre ++ c :: t2) →
    specEncode vocab enc (pre ++ c :: t2) =
      (specEncode vocab enc pre).bind
        (fun a => (specEncode vocab enc (c :: t2)).map (fun b => a ++ b)) := by
  have H : ∀ n pre, List.length pre ≤ n → markerFree (pre ++ c :: t2) →
      specEncode vocab enc (pre ++ c :: t2) =
        (specEncode vocab enc pre).bind
          (fun a => (specEncode vocab enc (c :: t2)).map (fun b => a ++ b)) := by
    intro n
    induction n with
    | zero =>
      intro pre hlen _
      have hpre : pre = [] := List.length_eq_zero.mp (by omega)
      subst hpre
      rw [List.nil_append, specEncode_nil]
      cases hsx : specEncode vocab enc (c :: t2) <;> simp
    | succ n ih =>
      intro pre hlen hm
      by_cases hpre : pre = []
      · subst hpre
        rw [List.nil_append, specEncode_nil]
        cases hsx : specEncode vocab enc (c :: t2) <;> simp
      · have hpne : pre ++ c :: t2 ≠ [] := by
          intro hc2; rcases List.append_eq_nil.mp hc2 with ⟨h1, _⟩; exact hpre h1
        obtain ⟨hnpf, hnef⟩ := markerFree_all _ hm 0
        rw [List.drop_zero] at hnpf hnef
        have hnp_pre : ¬(PADs.isPrefixOf pre = true) := fun hc2 =>
          hnpf (List.isPrefixOf_iff_prefix.mpr
            ((List.isPrefixOf_iff_prefix.mp hc2).trans (List.prefix_append _ _)))
        have hne_pre : ¬(EOSs.isPrefixOf pre = true) := fun hc2 =>
          hnef (List.isPrefixOf_iff_prefix.mpr
            ((List.isPrefixOf_iff_prefix.mp hc2).trans (List.prefix_append _ _)))
        have hplen : 1 ≤ pre.length := by
          cases pre with
          | nil => exact absurd rfl hpre
          | cons a l => simp
        have hk1 : 1 ≤ grabLen vocab pre 1 := grabLen_ge vocab pre 1
        have hkle : grabLen vocab pre 1 ≤ pre.length := grabLen_le vocab pre 1 hplen
        have hgl2 : grabLen vocab (pre ++ c :: t2) 1 = grabLen vocab pre 1 := by
          apply grabLen_eq
          · exact hk1
          · simp only [List.length_append]; omega
          · intro m h1m hmk
            rw [List.take_append_of_le_length (by omega)]
            exact grabLen_window vocab pre 1 m (by omega) (by omega)
          · right
            rcases Nat.lt_or_ge (grabLen vocab pre 1) pre.length with hkp | hkp
            · rw [List.take_append_of_le_length (by omega)]
              cases halo : (alookup vocab (pre.take (grabLen vocab pre 1 + 1))).isSome
              · rfl
              · exact absurd ⟨hkp, halo⟩ (grabLen_stopped vocab pre 1)
            · have hkeq : grabLen vocab pre 1 = pre.length := by omega
              have htake : (pre ++ c :: t2).take (grabLen vocab pre 1 + 1) = pre ++ [c] := by
                rw [hkeq, List.take_append]
                rfl
              rw [htake]
              cases halo : (alookup vocab (pre ++ [c])).isSome
              · rfl
              · exfalso
                have hmem := (alookup_isSome_iff vocab (pre ++ [c])).mp halo
                exact hcn _ hmem (List.mem_append_right _ (List.mem_singleton.mpr rfl))
        rw [specEncode_grab vocab enc (pre ++ c :: t2) hpne hnpf hnef,
            specEncode_grab vocab enc pre hpre hnp_pre hne_pre, hgl2,
            List.take_append_of_le_length hkle, List.drop_append_of_le_length hkle,
            ih (pre.drop (grabLen vocab pre 1)) (by simp only [List.length_drop]; omega)
              (by
                have hdd : pre.drop (grabLen vocab pre 1) ++ c :: t2 =
                    (pre ++ c :: t2).drop (grabLen vocab pre 1) :=
                  (List.drop_append_of_le_length hkle).symm
                rw [hdd]
                exact markerFree_drop _ _ hm)]
        cases htok : (match alookup enc (pre.take (grabLen vocab pre 1)) with
                      | some tk => some tk
                      | none => alookup enc UNKs) with
        | none => rfl
        | some tk =>
          cases specEncode vocab enc (pre.drop (grabLen vocab pre 1)) with
          | none => rfl
          | some a =>
            cases specEncode vocab enc (c :: t2) <;> simp
  intro pre
  exact H pre.length pre (le_refl _)

theorem specEncode_unknown_head (vocab : Vocab) (enc : List (Str × Int)) (c : Char)
    (t2 : List Char) (hcn : ∀ s ∈ dkeys vocab, c ∉ s) (hm : markerFree (c :: t2))
    (hU : alookup enc UNKs = some (-999)) (hnm : alookup enc [c] = none) :
    specEncode vocab enc (c :: t2) =
      (specEncode vocab enc t2).map (fun r => (-999) :: r) := by
  obtain ⟨hnp, hne⟩ := markerFree_all _ hm 0
  rw [List.drop_zero] at hnp hne
  rw [specEncode_grab vocab enc _ (by simp) hnp hne,
      grabLen_one_of_unknown vocab c t2 hcn]
  rw [show (c :: t2).take 1 = [c] from rfl, hnm, hU]
  rfl

/-- C2 (amended): an unknown character — one occurring in no table symbol —
that is preceded by at least one in-table character and sits in marker-free
text yields exactly one UNK reserved ID (-999) at its position, and encode
does not raise.  (At the very start of the text, or immediately after a
consumed marker, the scan's empty candidate produces one extra UNK; see the
counterexample.) -/
theorem c2_unknown_substitution (vocab : Vocab) (s : List Char) (c : Char) (t2 : List Char)
    (hnd : (dkeys vocab).Nodup)
    (hcn : ∀ key ∈ dkeys vocab, c ∉ key)
    (hs : s ≠ [])
    (Hs : ∀ ch ∈ s, [ch] ∈ dkeys vocab) (Ht : ∀ ch ∈ t2, [ch] ∈ dkeys vocab)
    (hm : markerFree (s ++ c :: t2)) :
    ∃ a b, encode vocab (rebuildTokenDict vocab).1 s = some a ∧
      encode vocab (rebuildTokenDict vocab).1 t2 = some b ∧
      encode vocab (rebuildTokenDict vocab).1 (s ++ c :: t2) = some (a ++ [-999] ++ b) := by
  obtain ⟨_, hU, _, _, _, _, _, _⟩ := rebuild_specials vocab
  obtain ⟨a, ha, _⟩ := specEncode_roundtrip vocab hnd s Hs
  obtain ⟨b, hbb, _⟩ := specEncode_roundtrip vocab hnd t2 Ht
  have hnm : alookup (rebuildTokenDict vocab).1 [c] = none := by
    apply alookup_rebuild_notmem vocab [c] (isSpecial_singleton c)
    intro hmem
    exact hcn [c] hmem (List.mem_singleton.mpr rfl)
  have hmt2 : markerFree (c :: t2) := by
    have hdd : c :: t2 = (s ++ c :: t2).drop s.length := by
      rw [List.drop_left]
    rw [hdd]
    exact markerFree_drop _ _ hm
  have hmt2' : markerFree t2 := by
    have hdd : t2 = (c :: t2).drop 1 := rfl
    rw [hdd]
    exact markerFree_drop _ _ hmt2
  have hencs : encode vocab (rebuildTokenDict vocab).1 s = some a := by
    rw [encode_eq_specEncode vocab _ s (fun h => charAt_isSome_of_mem vocab s 0 h Hs)
        (fun p hpk q _ _ hq => charAt_isSome_of_mem vocab s q hq Hs)]
    exact ha
  have henct : encode vocab (rebuildTokenDict vocab).1 t2 = some b := by
    rw [encode_eq_specEncode vocab _ t2 (fun h => charAt_isSome_of_mem vocab t2 0 h Ht)
        (fun p hpk q _ _ hq => charAt_isSome_of_mem vocab t2 q hq Ht)]
    exact hbb
  refine ⟨a, b, hencs, henct, ?_⟩
  have hstart : 0 < (s ++ c :: t2).length →
      (alookup vocab (charAt (s ++ c :: t2) 0)).isSome = true := by
    intro _
    have hca : charAt (s ++ c :: t2) 0 = charAt s 0 := by
      unfold charAt
      rw [List.drop_zero, List.drop_zero]
      exact List.take_append_of_le_length (by
        cases s with
        | nil => exact absurd rfl hs
        | cons a l => simp)
    rw [hca]
    exact charAt_isSome_of_mem vocab s 0 (by
      cases s with
      | nil => exact absurd rfl hs
      | cons a l => simp) Hs
  have hmkvac : ∀ p, (PADs.isPrefixOf ((s ++ c :: t2).drop p) = true ∨
      EOSs.isPrefixOf ((s ++ c :: t2).drop p) = true) →
      ∀ q, p ≤ q → q < p + 8 → q < (s ++ c :: t2).length →
      (alookup vocab (charAt (s ++ c :: t2) q)).isSome = true := by
    intro p hpk
    exact absurd hpk (not_or.mpr (markerFree_all _ hm p))
  rw [encode_eq_specEncode vocab _ (s ++ c :: t2) hstart hmkvac,
      specEncode_unknown_split vocab _ c t2 hcn s hm, ha,
      specEncode_unknown_head vocab _ c t2 hcn hmt2 hU hnm, hbb]
  simp

/-- Counterexample to C2 as literally stated: the single-character text "α"
(a character absent from the default table) encodes to two UNK IDs, not one —
the scan first finalizes the empty candidate (which is not in the encoder,
yielding UNK), then the character itself. -/
theorem c2_counterexample :
    encode initVocab (rebuildTokenDict initVocab).1 ['α'] = some [-999, -999] := by
  rw [encode, ← encodeLoopFuel_eq initVocab (rebuildTokenDict initVocab).1 ['α'] 50 0 0 []
      false (by decide)]
  decide

/-- Witness for C2 (amended): "a" ++ 'α' ++ "b" over the default table. -/
theorem c2_unknown_substitution_witness :
    (dkeys initVocab).Nodup ∧ (∀ key ∈ dkeys initVocab, 'α' ∉ key) ∧
    ("a".data ≠ []) ∧ markerFree ("a".data ++ 'α' :: "b".data) ∧
    (∃ a b, encode initVocab (rebuildTokenDict initVocab).1 "a".data = some a ∧
      encode initVocab (rebuildTokenDict initVocab).1 "b".data = some b ∧
      encode initVocab (rebuildTokenDict initVocab).1 ("a".data ++ 'α' :: "b".data) =
        some (a ++ [-999] ++ b)) := by
  refine ⟨by decide, by decide, by decide, ?_, ?_⟩
  · show ∀ p, p < ("a".data ++ 'α' :: "b".data).length → _
    decide
  · exact c2_unknown_substitution initVocab "a".data 'α' "b".data (by decide) (by decide)
      (by decide) (by decide) (by decide) (by
        show ∀ p, p < ("a".data ++ 'α' :: "b".data).length → _
        decide)

/-! ## Training (`train`) -/

/-- Whitespace for Python `str.split()`. -/
def isWs (c : Char) : Bool :=
  c = ' ' || c = '\t' || c = '\n' || c = '\r' || c = '\x0b' || c = '\x0c'

/-- Python `str.split()`: split on whitespace runs, discarding empty pieces. -/
def splitWsAux : List Char → List Char → List (List Char)
  | [], acc => if acc = [] then [] else [acc.reverse]
  | ch :: rest, acc =>
    if isWs ch then
      if acc = [] then splitWsAux rest [] else acc.reverse :: splitWsAux rest []
    else splitWsAux rest (ch :: acc)

def splitWs (s : List Char) : List (List Char) := splitWsAux s []

/-- The word-occurrence tally `_counted_words`, keys in first-encounter order. -/
def tally (ws : List Str) : List (Str × Nat) :=
  ws.foldl (fun acc w =>
    match alookup acc w with
    | some n => dictSet acc w (n + 1)
    | none => dictSet acc w 1) []

/-- The corpus units the merge search iterates over, with their weights:
the distinct space-separated words with their counts when `word_level`,
otherwise the raw corpus entries with weight 1. -/
def trainUnits (corpus : List Str) (wordLevel : Bool) : List (Str × Nat) :=
  if wordLevel then tally (corpus.flatMap splitWs)
  else corpus.map (fun t => (t, 1))

/-- `word_freqs[cand] += inc` (or `= inc` for a new candidate). -/
def bump (freqs : List (Str × Nat)) (k : Str) (inc : Nat) : List (Str × Nat) :=
  match alookup freqs k with
  | some v => dictSet freqs k (v + inc)
  | none => dictSet freqs k inc

/-- The inner scan of one corpus unit
(`while j < len(text) and len(text) > 2`), fuel-indexed: `j` advances every
iteration, so `tx.length` fuel always suffices (`scanLoop_stable`). -/
def scanLoop (temp : Vocab) (tx : List Char) (inc : Nat) :
    Nat → Nat → Nat → List (Str × Nat) → List (Str × Nat)
  | 0, _, _, freqs => freqs
  | fuel + 1, i, j, freqs =>
    if j < tx.length ∧ 2 < tx.length then
      if (alookup temp (pySlice tx i j ++ charAt tx j)).isSome then
        scanLoop temp tx inc fuel i (j + 1) freqs
      else
        scanLoop temp tx inc fuel j (j + 1) (bump freqs (pySlice tx i j ++ charAt tx j) inc)
    else freqs

/-- One full pass over the corpus units, producing the candidate tally
`word_freqs` with keys in first-encounter order. -/
def passFreqs (temp : Vocab) (units : List (Str × Nat)) : List (Str × Nat) :=
  units.foldl (fun freqs u => scanLoop temp u.1 u.2 u.1.length 0 1 freqs) []

/-- CPython `max(word_freqs, key=word_freqs.get)`: keep the first element,
replace only on strict improvement — the first maximum. -/
def maxGo (bk : Str) (bv : Nat) : List (Str × Nat) → Str × Nat
  | [] => (bk, bv)
  | (k, v) :: rest => if bv < v then maxGo k v rest else maxGo bk bv rest

/-- The merge loop (`while len(_temp_vocab) < desired_vocab_size`),
fuel-indexed: each iteration inserts a key that is fresh for the working
table, so `desired` fuel always suffices (see C8's theorem).  Returns the
final working table and the sequence of merge insertions
`(best_pair_str, occurences)` in order. -/
def trainLoop (units : List (Str × Nat)) (desired : Nat) :
    Nat → Vocab → Vocab × List (Str × Nat)
  | 0, temp => (temp, [])
  | fuel + 1, temp =>
    if temp.length < desired then
      match passFreqs temp units with
      | [] => (temp, [])
      | f :: fs =>
        let best := (maxGo f.1 f.2 fs).1
        let occ := (alookup (f :: fs) best).getD 0
        let rest := trainLoop units desired fuel (dictSet temp best occ)
        (rest.1, (best, occ) :: rest.2)
    else (temp, [])

/-- `_include_corpus_chars`: bump the frequency of each present character,
insert new characters at frequency 1. -/
def includeCorpusChars (v : Vocab) (cs : List Char) : Vocab :=
  cs.foldl (fun acc ch =>
    match alookup acc [ch] with
    | some n => dictSet acc [ch] (n + 1)
    | none => dictSet acc [ch] 1) v

/-- `_update_vocab`: `self.vocab[key] = value` for every entry of the external
mapping (the token dicts are rebuilt separately afterwards). -/
def updateVocab (v : Vocab) (ext : Vocab) : Vocab :=
  ext.foldl (fun acc kv => dictSet acc kv.1 kv.2) v

/-- `train(corpus, desired_vocab_size, word_level)`: snapshot the table into
`_temp_vocab`, absorb corpus characters into the live table, build the corpus
units, run the merge loop on the snapshot, and commit the working table via
`_update_vocab`.  Returns the resulting vocabulary together with the merge
sequence.  (`_set_vocab_size` only adjusts the `vocab_size` attribute, which
plays no further role in the computation.) -/
def train (vocab : Vocab) (corpus : List Str) (desired : Nat) (wordLevel : Bool) :
    Vocab × List (Str × Nat) :=
  let live := includeCorpusChars vocab corpus.flatten
  let units := trainUnits corpus wordLevel
  let res := trainLoop units desired desired vocab
  (updateVocab live res.1, res.2)

/-! ### Properties of the candidate tally -/

theorem mem_dkeys_bump (freqs : List (Str × Nat)) (k k' : Str) (inc : Nat) :
    k' ∈ dkeys (bump freqs k inc) ↔ k' ∈ dkeys freqs ∨ k' = k := by
  unfold bump
  cases alookup freqs k <;> exact mem_dkeys_dictSet freqs k k' _

theorem nodup_dkeys_bump (freqs : List (Str × Nat)) (k : Str) (inc : Nat)
    (h : (dkeys freqs).Nodup) : (dkeys (bump freqs k inc)).Nodup := by
  unfold bump
  cases alookup freqs k <;> exact nodup_dkeys_dictSet freqs k _ h

/-- Every key the unit scan records is absent from the working table. -/
theorem scanLoop_fresh (temp : Vocab) (tx : List Char) (inc : Nat) :
    ∀ fuel i j freqs, (∀ k ∈ dkeys freqs, alookup temp k = none) →
    ∀ k ∈ dkeys (scanLoop temp tx inc fuel i j freqs), alookup temp k = none := by
  intro fuel
  induction fuel with
  | zero => intro i j freqs hf; exact hf
  | succ fuel ih =>
    intro i j freqs hf k hk
    rw [scanLoop] at hk
    split at hk
    · split at hk
      · exact ih i (j + 1) freqs hf k hk
      · refine ih j (j + 1) _ ?_ k hk
        intro k' hk'
        rcases (mem_dkeys_bump freqs _ k' inc).mp hk' with h | h
        · exact hf k' h
        · subst h
          next hsome =>
            cases halo : alookup temp (pySlice tx i j ++ charAt tx j) with
            | none => rfl
            | some v => rw [halo] at hsome; simp at hsome
    · exact hf k hk

/-- Every key the unit scan records has length at least 2 (a window of at
least one character plus the next character). -/
theorem scanLoop_keylen (temp : Vocab) (tx : List Char) (inc : Nat) :
    ∀ fuel i j freqs, i < j → (∀ k ∈ dkeys freqs, 2 ≤ k.length) →
    ∀ k ∈ dkeys (scanLoop temp tx inc fuel i j freqs), 2 ≤ k.length := by
  intro fuel
  induction fuel with
  | zero => intro i j freqs _ hf; exact hf
  | succ fuel ih =>
    intro i j freqs hij hf k hk
    rw [scanLoop] at hk
    split at hk
    · next hcond =>
      split at hk
      · exact ih i (j + 1) freqs (by omega) hf k hk
      · refine ih j (j + 1) _ (by omega) ?_ k hk
        intro k' hk'
        rcases (mem_dkeys_bump freqs _ k' inc).mp hk' with h | h
        · exact hf k' h
        · subst h
          rw [List.length_append, length_pySlice]
          have hc1 : (charAt tx j).length = 1 := by
            unfold charAt
            rw [List.length_take, List.length_drop]
            omega
          omega
    · exact hf k hk

theorem scanLoop_nodup (temp : Vocab) (tx : List Char) (inc : Nat) :
    ∀ fuel i j freqs, (dkeys freqs).Nodup →
    (dkeys (scanLoop temp tx inc fuel i j freqs)).Nodup := by
  intro fuel
  induction fuel with
  | zero => intro i j freqs hf; exact hf
  | succ fuel ih =>
    intro i j freqs hf
    rw [scanLoop]
    split
    · split
      · exact ih i (j + 1) freqs hf
      · exact ih j (j + 1) _ (nodup_dkeys_bump freqs _ inc hf)
    · exact hf

theorem passFreqs_fresh (temp : Vocab) (units : List (Str × Nat)) :
    ∀ k ∈ dkeys (passFreqs temp units), alookup temp k = none := by
  unfold passFreqs
  have H : ∀ (us : List (Str × Nat)) (freqs : List (Str × Nat)),
      (∀ k ∈ dkeys freqs, alookup temp k = none) →
      ∀ k ∈ dkeys (us.foldl (fun fr (u : Str × Nat) =>
        scanLoop temp u.1 u.2 u.1.length 0 1 fr) freqs), alookup temp k = none := by
    intro us
    induction us with
    | nil => intro freqs hf; exact hf
    | cons u us ih =>
      intro freqs hf
      exact ih _ (scanLoop_fresh temp u.1 u.2 u.1.length 0 1 freqs hf)
  exact H units [] (by simp)

theorem passFreqs_keylen (temp : Vocab) (units : List (Str × Nat)) :
    ∀ k ∈ dkeys (passFreqs temp units), 2 ≤ k.length := by
  unfold passFreqs
  have H : ∀ (us : List (Str × Nat)) (freqs : List (Str × Nat)),
      (∀ k ∈ dkeys freqs, 2 ≤ k.length) →
      ∀ k ∈ dkeys (us.foldl (fun fr (u : Str × Nat) =>
        scanLoop temp u.1 u.2 u.1.length 0 1 fr) freqs), 2 ≤ k.length := by
    intro us
    induction us with
    | nil => intro freqs hf; exact hf
    | cons u us ih =>
      intro freqs hf
      exact ih _ (scanLoop_keylen temp u.1 u.2 u.1.length 0 1 freqs (by omega) hf)
  exact H units [] (by simp)

theorem passFreqs_nodup (temp : Vocab) (units : List (Str × Nat)) :
    (dkeys (passFreqs temp units)).Nodup := by
  unfold passFreqs
  have H : ∀ (us : List (Str × Nat)) (freqs : List (Str × Nat)),
      (dkeys freqs).Nodup →
      (dkeys (us.foldl (fun fr (u : Str × Nat) =>
        scanLoop temp u.1 u.2 u.1.length 0 1 fr) freqs)).Nodup := by
    intro us
    induction us with
    | nil => intro freqs hf; exact hf
    | cons u us ih =>
      intro freqs hf
      exact ih _ (scanLoop_nodup temp u.1 u.2 u.1.length 0 1 freqs hf)
  exact H units [] (by simp)

/-! ### Python `max(freqs, key=freqs.get)` -/

/-- `maxGo bk bv l` picks the FIRST entry of maximal value from
`(bk, bv) :: l` (strict `<` to move on, so ties keep the earlier entry):
the list decomposes around the selected entry, everything strictly before
it has a strictly smaller value, everything after at most its value. -/
theorem maxGo_first_max : ∀ (l : List (Str × Nat)) (bk : Str) (bv : Nat),
    ∃ pre post, (bk, bv) :: l = pre ++ maxGo bk bv l :: post ∧
      (∀ e ∈ pre, e.2 < (maxGo bk bv l).2) ∧
      (∀ e ∈ post, e.2 ≤ (maxGo bk bv l).2) := by
  intro l
  induction l with
  | nil =>
    intro bk bv
    exact ⟨[], [], rfl, by simp, by simp⟩
  | cons p rest ih =>
    intro bk bv
    obtain ⟨k, v⟩ := p
    by_cases hlt : bv < v
    · have hm : maxGo bk bv ((k, v) :: rest) = maxGo k v rest := by
        rw [maxGo, if_pos hlt]
      rw [hm]
      obtain ⟨pre, post, hdec, hpre, hpost⟩ := ih k v
      have hvle : v ≤ (maxGo k v rest).2 := by
        cases pre with
        | nil =>
          have : (k, v) = maxGo k v rest := by
            have := hdec
            simp at this
            exact this.1
          rw [← this]
        | cons q pre' =>
          have hq : q = (k, v) := by
            have := hdec
            simp at this
            exact this.1.symm
          have : (k, v) ∈ q :: pre' := by rw [hq]; exact List.mem_cons_self _ _
          exact le_of_lt (hpre (k, v) this)
      refine ⟨(bk, bv) :: pre, post, by rw [List.cons_append, ← hdec], ?_, hpost⟩
      intro e he
      rcases List.mem_cons.mp he with h | h
      · subst h; exact lt_of_lt_of_le hlt hvle
      · exact hpre e h
    · have hm : maxGo bk bv ((k, v) :: rest) = maxGo bk bv rest := by
        rw [maxGo, if_neg hlt]
      rw [hm]
      obtain ⟨pre, post, hdec, hpre, hpost⟩ := ih bk bv
      cases pre with
      | nil =>
        have hM : maxGo bk bv rest = (bk, bv) := by
          have := hdec
          simp at this
          exact this.1.symm
        have hrest : rest = post := by
          have := hdec
          simp at this
          exact this.2
        refine ⟨[], (k, v) :: post, ?_, by simp, ?_⟩
        · rw [List.nil_append, hM, hrest]
        · intro e he
          rcases List.mem_cons.mp he with h | h
          · subst h; rw [hM]; omega
          · exact hpost e h
      | cons q pre' =>
        have hq : q = (bk, bv) := by
          have := hdec
          simp at this
          exact this.1.symm
        have hrest : rest = pre' ++ maxGo bk bv rest :: post := by
          have := hdec
          simp at this
          exact this.2
        have hbv : bv < (maxGo bk bv rest).2 := by
          have := hpre q (List.mem_cons_self _ _)
          rw [hq] at this
          exact this
        refine ⟨(bk, bv) :: (k, v) :: pre', post, ?_, ?_, hpost⟩
        · rw [List.cons_append, List.cons_append, ← hrest]
        · intro e he
          rcases List.mem_cons.mp he with h | h
          · subst h; exact hbv
          · rcases List.mem_cons.mp h with h | h
            · subst h; omega
            · exact hpre e (List.mem_cons_of_mem _ h)

theorem alookup_decomp {α β : Type} [DecidableEq α] (pre post : List (α × β)) (k : α) (v : β)
    (hnd : (dkeys (pre ++ (k, v) :: post)).Nodup) :
    alookup (pre ++ (k, v) :: post) k = some v := by
  induction pre with
  | nil => simp
  | cons q pre ih =>
    obtain ⟨k', v'⟩ := q
    have hnd' : (dkeys (pre ++ (k, v) :: post)).Nodup ∧
        k' ∉ dkeys (pre ++ (k, v) :: post) := by
      have := hnd
      simp only [List.cons_append, dkeys, List.map_cons, List.nodup_cons] at this
      exact ⟨this.2, this.1⟩
    have hne : k' ≠ k := by
      intro h
      subst h
      exact hnd'.2 (by simp [dkeys])
    rw [List.cons_append, alookup_cons, if_neg hne]
    exact ih hnd'.1

/-- With duplicate-free keys, looking up the selected maximum in the tally
returns exactly its recorded value. -/
theorem alookup_maxGo (f : Str × Nat) (fs : List (Str × Nat))
    (hnd : (dkeys (f :: fs)).Nodup) :
    alookup (f :: fs) (maxGo f.1 f.2 fs).1 = some (maxGo f.1 f.2 fs).2 := by
  obtain ⟨pre, post, hdec, _, _⟩ := maxGo_first_max fs f.1 f.2
  have hdec' : (f :: fs : List (Str × Nat)) =
      pre ++ ((maxGo f.1 f.2 fs).1, (maxGo f.1 f.2 fs).2) :: post := hdec
  rw [hdec']
  exact alookup_decomp pre post _ _ (by rw [← hdec']; exact hnd)

theorem maxGo_mem_dkeys (f : Str × Nat) (fs : List (Str × Nat)) :
    (maxGo f.1 f.2 fs).1 ∈ dkeys (f :: fs) := by
  obtain ⟨pre, post, hdec, _, _⟩ := maxGo_first_max fs f.1 f.2
  have hdec' : (f :: fs : List (Str × Nat)) =
      pre ++ ((maxGo f.1 f.2 fs).1, (maxGo f.1 f.2 fs).2) :: post := hdec
  rw [hdec']
  simp [dkeys]

/-! ### Properties of the merge loop -/

theorem trainLoop_stop (units : List (Str × Nat)) (desired fuel : Nat) (temp : Vocab)
    (hlen : ¬temp.length < desired) :
    trainLoop units desired fuel temp = (temp, []) := by
  cases fuel with
  | zero => rfl
  | succ fuel => rw [trainLoop, if_neg hlen]

theorem trainLoop_nil (units : List (Str × Nat)) (desired fuel : Nat) (temp : Vocab)
    (hlen : temp.length < desired) (hpf : passFreqs temp units = []) :
    trainLoop units desired (fuel + 1) temp = (temp, []) := by
  rw [trainLoop, if_pos hlen, hpf]

theorem trainLoop_cons (units : List (Str × Nat)) (desired fuel : Nat) (temp : Vocab)
    (f : Str × Nat) (fs : List (Str × Nat)) (hlen : temp.length < desired)
    (hpf : passFreqs temp units = f :: fs) :
    trainLoop units desired (fuel + 1) temp =
      ((trainLoop units desired fuel (dictSet temp (maxGo f.1 f.2 fs).1
          ((alookup (f :: fs) (maxGo f.1 f.2 fs).1).getD 0))).1,
        ((maxGo f.1 f.2 fs).1, (alookup (f :: fs) (maxGo f.1 f.2 fs).1).getD 0) ::
        (trainLoop units desired fuel (dictSet temp (maxGo f.1 f.2 fs).1
          ((alookup (f :: fs) (maxGo f.1 f.2 fs).1).getD 0))).2) := by
  rw [trainLoop, if_pos hlen, hpf]

/-- The key the merge loop is about to insert is fresh for the working table. -/
theorem best_fresh (temp : Vocab) (units : List (Str × Nat)) (f : Str × Nat)
    (fs : List (Str × Nat)) (hpf : passFreqs temp units = f :: fs) :
    alookup temp (maxGo f.1 f.2 fs).1 = none := by
  refine passFreqs_fresh temp units _ ?_
  rw [hpf]
  exact maxGo_mem_dkeys f fs

theorem best_keylen (temp : Vocab) (units : List (Str × Nat)) (f : Str × Nat)
    (fs : List (Str × Nat)) (hpf : passFreqs temp units = f :: fs) :
    2 ≤ (maxGo f.1 f.2 fs).1.length := by
  refine passFreqs_keylen temp units _ ?_
  rw [hpf]
  exact maxGo_mem_dkeys f fs

/-- Each insertion of the merge loop grows the working table by exactly one
entry (the inserted key being fresh). -/
theorem best_insert_length (temp : Vocab) (units : List (Str × Nat)) (f : Str × Nat)
    (fs : List (Str × Nat)) (occ : Nat) (hpf : passFreqs temp units = f :: fs) :
    (dictSet temp (maxGo f.1 f.2 fs).1 occ).length = temp.length + 1 := by
  rw [length_dictSet, if_neg]
  exact (alookup_eq_none_iff temp _).mp (best_fresh temp units f fs hpf)

/-- Shape of the merge loop: the working table only grows, by appending
entries whose keys have length at least 2, and its size never exceeds
`max temp.length desired`. -/
theorem trainLoop_shape (units : List (Str × Nat)) (desired : Nat) :
    ∀ fuel temp, ∃ E, (trainLoop units desired fuel temp).1 = temp ++ E ∧
      (∀ kv ∈ E, 2 ≤ kv.1.length) ∧
      temp.length + E.length ≤ max temp.length desired := by
  intro fuel
  induction fuel with
  | zero =>
    intro temp
    exact ⟨[], by rw [trainLoop, List.append_nil], by simp, by simp⟩
  | succ fuel ih =>
    intro temp
    by_cases hlen : temp.length < desired
    · cases hpf : passFreqs temp units with
      | nil =>
        rw [trainLoop_nil units desired fuel temp hlen hpf]
        exact ⟨[], by rw [List.append_nil], by simp, by simp⟩
      | cons f fs =>
        rw [trainLoop_cons units desired fuel temp f fs hlen hpf]
        have hfresh : (maxGo f.1 f.2 fs).1 ∉ dkeys temp :=
          (alookup_eq_none_iff temp _).mp (best_fresh temp units f fs hpf)
        have happ : dictSet temp (maxGo f.1 f.2 fs).1
            ((alookup (f :: fs) (maxGo f.1 f.2 fs).1).getD 0) =
            temp ++ [((maxGo f.1 f.2 fs).1,
              (alookup (f :: fs) (maxGo f.1 f.2 fs).1).getD 0)] :=
          dictSet_eq_append temp _ _ hfresh
        obtain ⟨E', hE1, hE2, hE3⟩ := ih (dictSet temp (maxGo f.1 f.2 fs).1
          ((alookup (f :: fs) (maxGo f.1 f.2 fs).1).getD 0))
        refine ⟨((maxGo f.1 f.2 fs).1,
          (alookup (f :: fs) (maxGo f.1 f.2 fs).1).getD 0) :: E', ?_, ?_, ?_⟩
        · rw [hE1, happ, List.append_assoc, List.singleton_append]
        · intro kv hkv
          rcases List.mem_cons.mp hkv with h | h
          · subst h; exact best_keylen temp units f fs hpf
          · exact hE2 kv h
        · have hL : (dictSet temp (maxGo f.1 f.2 fs).1
              ((alookup (f :: fs) (maxGo f.1 f.2 fs).1).getD 0)).length =
              temp.length + 1 := best_insert_length temp units f fs _ hpf
          rw [hL] at hE3
          simp only [List.length_cons]
          omega
    · rw [trainLoop_stop units desired (fuel + 1) temp hlen]
      exact ⟨[], by rw [List.append_nil], by simp, by simp⟩

/-- Fuel irrelevance for the merge loop: any fuel covering the remaining gap
to the target size gives the same result — the loop terminates. -/
theorem trainLoop_stable (units : List (Str × Nat)) (desired : Nat) :
    ∀ f1 f2 temp, desired ≤ temp.length + f1 → desired ≤ temp.length + f2 →
      trainLoop units desired f1 temp = trainLoop units desired f2 temp := by
  intro f1
  induction f1 with
  | zero =>
    intro f2 temp h1 _
    rw [trainLoop_stop units desired 0 temp (by omega),
      trainLoop_stop units desired f2 temp (by omega)]
  | succ f1 ih =>
    intro f2 temp h1 h2
    by_cases hlen : temp.length < desired
    · cases f2 with
      | zero => omega
      | succ f2 =>
        cases hpf : passFreqs temp units with
        | nil =>
          rw [trainLoop_nil units desired f1 temp hlen hpf,
            trainLoop_nil units desired f2 temp hlen hpf]
        | cons f fs =>
          rw [trainLoop_cons units desired f1 temp f fs hlen hpf,
            trainLoop_cons units desired f2 temp f fs hlen hpf]
          have hL : (dictSet temp (maxGo f.1 f.2 fs).1
              ((alookup (f :: fs) (maxGo f.1 f.2 fs).1).getD 0)).length =
              temp.length + 1 := best_insert_length temp units f fs _ hpf
          rw [ih f2 _ (by omega) (by omega)]
    · rw [trainLoop_stop units desired (f1 + 1) temp hlen,
        trainLoop_stop units desired f2 temp hlen]

/-- C4: in every training-loop iteration with a non-empty candidate tally
`f :: fs`, the selected candidate `best := maxGo f.1 f.2 fs` is the one with
the strictly highest tally, ties broken by first encounter in corpus-unit
order (everything tallied before it is strictly smaller, everything after it
at most equal); the tally lookup of `best` returns its recorded count, `best`
is absent from the working table, inserting it appends `(best, tally)` at the
end, and the merge loop records `(best, tally)` as the next merge; in
particular training on the single corpus unit "aaab" with word_level = false
and target size one above the initial size adds exactly the new symbol "aa"
(not "ab" or "aaa"), with frequency 2, recorded as the only merge. -/
theorem c4_max_tally_selection (temp : Vocab) (units : List (Str × Nat))
    (desired fuel : Nat) (f : Str × Nat) (fs : List (Str × Nat))
    (hlen : temp.length < desired) (hpf : passFreqs temp units = f :: fs) :
    ((∃ pre post, f :: fs = pre ++ maxGo f.1 f.2 fs :: post ∧
        (∀ e ∈ pre, e.2 < (maxGo f.1 f.2 fs).2) ∧
        (∀ e ∈ post, e.2 ≤ (maxGo f.1 f.2 fs).2)) ∧
      alookup (f :: fs) (maxGo f.1 f.2 fs).1 = some (maxGo f.1 f.2 fs).2 ∧
      alookup temp (maxGo f.1 f.2 fs).1 = none ∧
      dictSet temp (maxGo f.1 f.2 fs).1 (maxGo f.1 f.2 fs).2 =
        temp ++ [maxGo f.1 f.2 fs] ∧
      trainLoop units desired (fuel + 1) temp =
        ((trainLoop units desired fuel (temp ++ [maxGo f.1 f.2 fs])).1,
          maxGo f.1 f.2 fs ::
            (trainLoop units desired fuel (temp ++ [maxGo f.1 f.2 fs])).2)) ∧
    dkeys (train initVocab ["aaab".data] (initVocab.length + 1) false).1 =
      dkeys initVocab ++ [['a', 'a']] ∧
    alookup (train initVocab ["aaab".data] (initVocab.length + 1) false).1
      ['a', 'a'] = some 2 ∧
    (train initVocab ["aaab".data] (initVocab.length + 1) false).2 =
      [(['a', 'a'], 2)] := by
  have hnd : (dkeys (f :: fs)).Nodup := by
    rw [← hpf]; exact passFreqs_nodup temp units
  have hlook : alookup (f :: fs) (maxGo f.1 f.2 fs).1 = some (maxGo f.1 f.2 fs).2 :=
    alookup_maxGo f fs hnd
  have hfresh : alookup temp (maxGo f.1 f.2 fs).1 = none :=
    best_fresh temp units f fs hpf
  have happ : dictSet temp (maxGo f.1 f.2 fs).1 (maxGo f.1 f.2 fs).2 =
      temp ++ [maxGo f.1 f.2 fs] :=
    dictSet_eq_append temp _ _ ((alookup_eq_none_iff temp _).mp hfresh)
  refine ⟨⟨maxGo_first_max fs f.1 f.2, hlook, hfresh, happ, ?_⟩,
    by decide, by decide, by decide⟩
  rw [trainLoop_cons units desired fuel temp f fs hlen hpf, hlook]
  simp only [Option.getD_some]
  rw [happ]

/-- C8: the training merge loop terminates.  With a non-empty candidate tally
the selected candidate is absent from the working table and its insertion
strictly grows the table by one entry toward the size target; with an empty
tally the loop takes the early break; consequently the loop's result is
independent of the fuel once the fuel covers the gap between the current
table size and the target (the loop reaches a fixpoint). -/
theorem c8_termination (units : List (Str × Nat)) (desired : Nat) (temp : Vocab)
    (hlen : temp.length < desired) :
    (∀ fuel, passFreqs temp units = [] →
      trainLoop units desired (fuel + 1) temp = (temp, [])) ∧
    (∀ f fs, passFreqs temp units = f :: fs →
      alookup temp (maxGo f.1 f.2 fs).1 = none ∧
      (dictSet temp (maxGo f.1 f.2 fs).1
          ((alookup (f :: fs) (maxGo f.1 f.2 fs).1).getD 0)).length =
        temp.length + 1) ∧
    (∀ f1 f2, desired ≤ temp.length + f1 → desired ≤ temp.length + f2 →
      trainLoop units desired f1 temp = trainLoop units desired f2 temp) := by
  refine ⟨fun fuel hpf => trainLoop_nil units desired fuel temp hlen hpf,
    fun f fs hpf => ⟨best_fresh temp units f fs hpf,
      best_insert_length temp units f fs _ hpf⟩,
    fun f1 f2 h1 h2 => trainLoop_stable units desired f1 f2 temp h1 h2⟩

/-- C9: training is a deterministic function of its inputs — from identical
initial tables (same corpus, target size and word_level flag) it produces
identical final tables (same symbols and same frequencies) and an identical
sequence of merge insertions. -/
theorem c9_determinism (v1 v2 : Vocab) (corpus : List Str) (desired : Nat)
    (wl : Bool) (h : v1 = v2) :
    (train v1 corpus desired wl).1 = (train v2 corpus desired wl).1 ∧
    dkeys (train v1 corpus desired wl).1 = dkeys (train v2 corpus desired wl).1 ∧
    (∀ s, alookup (train v1 corpus desired wl).1 s =
      alookup (train v2 corpus desired wl).1 s) ∧
    (train v1 corpus desired wl).2 = (train v2 corpus desired wl).2 := by
  subst h
  exact ⟨rfl, rfl, fun s => rfl, rfl⟩

theorem c9_determinism_witness :
    (train initVocab ["ab".data] 100 false).2 =
      (train initVocab ["ab".data] 100 false).2 :=
  (c9_determinism initVocab initVocab ["ab".data] 100 false rfl).2.2.2

theorem c4_max_tally_selection_witness :
    List.length initVocab < 100 ∧
    passFreqs initVocab [("aaab".data, 1)] = [(['a', 'a'], 2), (['a', 'b'], 1)] ∧
    alookup initVocab ['a', 'a'] = none :=
  ⟨by decide, by decide,
    (c4_max_tally_selection initVocab [("aaab".data, 1)] 100 0 (['a', 'a'], 2)
      [(['a', 'b'], 1)] (by decide) (by decide)).1.2.2.1⟩

theorem c8_termination_witness :
    List.length initVocab < 100 ∧
    trainLoop [] 100 1 initVocab = trainLoop [] 100 2 initVocab :=
  ⟨by decide,
    (c8_termination [] 100 initVocab (by decide)).2.2 1 2 (by decide) (by decide)⟩

/-! ### Counting the table after training -/

/-- The distinct single-character symbols of the corpus text that are absent
from a table: exactly the keys `_include_corpus_chars` can add. -/
def newCorpusChars (v : Vocab) (cs : List Char) : List Str :=
  ((cs.map (fun c => [c])).dedup).filter (fun s => (alookup v s).isNone)

theorem include_step (v : Vocab) (c : Char) (cs : List Char) :
    includeCorpusChars v (c :: cs) =
      includeCorpusChars (match alookup v [c] with
        | some n => dictSet v [c] (n + 1)
        | none => dictSet v [c] 1) cs := rfl

theorem mem_dkeys_includeCorpusChars (cs : List Char) :
    ∀ (v : Vocab) (s : Str), s ∈ dkeys v → s ∈ dkeys (includeCorpusChars v cs) := by
  induction cs with
  | nil => intro v s hs; exact hs
  | cons c cs ih =>
    intro v s hs
    rw [include_step]
    cases h : alookup v [c] with
    | some n => exact ih _ s ((mem_dkeys_dictSet v [c] s (n + 1)).mpr (Or.inl hs))
    | none => exact ih _ s ((mem_dkeys_dictSet v [c] s 1).mpr (Or.inl hs))

theorem nodup_dkeys_includeCorpusChars (cs : List Char) :
    ∀ v : Vocab, (dkeys v).Nodup → (dkeys (includeCorpusChars v cs)).Nodup := by
  induction cs with
  | nil => intro v hv; exact hv
  | cons c cs ih =>
    intro v hv
    rw [include_step]
    cases h : alookup v [c] with
    | some n => exact ih _ (nodup_dkeys_dictSet v [c] (n + 1) hv)
    | none => exact ih _ (nodup_dkeys_dictSet v [c] 1 hv)

theorem dkeys_includeCorpusChars_sub (cs : List Char) :
    ∀ (v : Vocab) (s : Str), s ∈ dkeys (includeCorpusChars v cs) →
      s ∈ dkeys v ∨ ∃ c ∈ cs, s = [c] := by
  induction cs with
  | nil => intro v s hs; exact Or.inl hs
  | cons c cs ih =>
    intro v s hs
    rw [include_step] at hs
    cases h : alookup v [c] with
    | some n =>
      rw [h] at hs
      rcases ih (dictSet v [c] (n + 1)) s hs with h' | h'
      · rcases (mem_dkeys_dictSet v [c] s (n + 1)).mp h' with h'' | h''
        · exact Or.inl h''
        · exact Or.inr ⟨c, List.mem_cons_self _ _, h''⟩
      · obtain ⟨c', hc', rfl⟩ := h'
        exact Or.inr ⟨c', List.mem_cons_of_mem _ hc', rfl⟩
    | none =>
      rw [h] at hs
      rcases ih (dictSet v [c] 1) s hs with h' | h'
      · rcases (mem_dkeys_dictSet v [c] s 1).mp h' with h'' | h''
        · exact Or.inl h''
        · exact Or.inr ⟨c, List.mem_cons_self _ _, h''⟩
      · obtain ⟨c', hc', rfl⟩ := h'
        exact Or.inr ⟨c', List.mem_cons_of_mem _ hc', rfl⟩

theorem length_le_includeCorpusChars (cs : List Char) :
    ∀ v : Vocab, v.length ≤ (includeCorpusChars v cs).length := by
  induction cs with
  | nil => intro v; exact le_refl _
  | cons c cs ih =>
    intro v
    rw [include_step]
    cases h : alookup v [c] with
    | some n => exact le_trans (length_le_length_dictSet v [c] (n + 1)) (ih _)
    | none => exact le_trans (length_le_length_dictSet v [c] 1) (ih _)

theorem updateVocab_cons (v : Vocab) (kv : Str × Nat) (l : Vocab) :
    updateVocab v (kv :: l) = updateVocab (dictSet v kv.1 kv.2) l := rfl

theorem updateVocab_append (v l1 l2 : Vocab) :
    updateVocab v (l1 ++ l2) = updateVocab (updateVocab v l1) l2 := by
  unfold updateVocab
  rw [List.foldl_append]

theorem length_updateVocab_of_mem (l : Vocab) :
    ∀ v : Vocab, (∀ kv ∈ l, kv.1 ∈ dkeys v) →
      (updateVocab v l).length = v.length := by
  induction l with
  | nil => intro v _; rfl
  | cons kv l ih =>
    intro v h
    rw [updateVocab_cons]
    have h1 : kv.1 ∈ dkeys v := h kv (List.mem_cons_self _ _)
    have h2 : ∀ kv' ∈ l, kv'.1 ∈ dkeys (dictSet v kv.1 kv.2) := by
      intro kv' hkv'
      exact (mem_dkeys_dictSet v kv.1 kv'.1 kv.2).mpr
        (Or.inl (h kv' (List.mem_cons_of_mem _ hkv')))
    rw [ih _ h2, length_dictSet, if_pos h1]

theorem length_updateVocab_le (l : Vocab) :
    ∀ v : Vocab, (updateVocab v l).length ≤ v.length + l.length := by
  induction l with
  | nil => intro v; simp [updateVocab]
  | cons kv l ih =>
    intro v
    rw [updateVocab_cons]
    calc (updateVocab (dictSet v kv.1 kv.2) l).length
        ≤ (dictSet v kv.1 kv.2).length + l.length := ih _
      _ ≤ (v.length + 1) + l.length := by
          have := length_dictSet_le v kv.1 kv.2; omega
      _ = v.length + (kv :: l).length := by simp; omega

theorem length_le_updateVocab (l : Vocab) :
    ∀ v : Vocab, v.length ≤ (updateVocab v l).length := by
  induction l with
  | nil => intro v; exact le_refl _
  | cons kv l ih =>
    intro v
    rw [updateVocab_cons]
    exact le_trans (length_le_length_dictSet v kv.1 kv.2) (ih _)

/-- Absorbing corpus characters grows a duplicate-free table by at most the
number of distinct corpus characters that were absent from it. -/
theorem length_includeCorpusChars_le (v : Vocab) (cs : List Char)
    (hnd : (dkeys v).Nodup) :
    (includeCorpusChars v cs).length ≤ v.length + (newCorpusChars v cs).length := by
  have hndl : (dkeys (includeCorpusChars v cs)).Nodup :=
    nodup_dkeys_includeCorpusChars cs v hnd
  have hsub : dkeys (includeCorpusChars v cs) ⊆ dkeys v ++ newCorpusChars v cs := by
    intro s hs
    rcases dkeys_includeCorpusChars_sub cs v s hs with h | h
    · exact List.mem_append_left _ h
    · obtain ⟨c, hc, rfl⟩ := h
      by_cases hv : [c] ∈ dkeys v
      · exact List.mem_append_left _ hv
      · refine List.mem_append_right _ ?_
        unfold newCorpusChars
        rw [List.mem_filter]
        refine ⟨?_, ?_⟩
        · rw [List.mem_dedup]
          exact List.mem_map.mpr ⟨c, hc, rfl⟩
        · show (alookup v [c]).isNone = true
          rw [Option.isNone_iff_eq_none]
          exact (alookup_eq_none_iff v [c]).mpr hv
  have hlen : (dkeys (includeCorpusChars v cs)).length ≤
      (dkeys v ++ newCorpusChars v cs).length :=
    (hndl.subperm hsub).length_le
  have e1 : (dkeys (includeCorpusChars v cs)).length =
      (includeCorpusChars v cs).length := by
    unfold dkeys; rw [List.length_map]
  have e2 : (dkeys v).length = v.length := by
    unfold dkeys; rw [List.length_map]
  rw [List.length_append, e1, e2] at hlen
  exact hlen

set_option maxRecDepth 8000 in
/-- C3 counterexample: training the default 99-symbol table on the corpus
["α"] with requested target size 99 produces a table of 100 symbols — the
merge loop respects the size check on its snapshot, but
`_include_corpus_chars` then adds the unseen corpus character to the live
table, so the final size exceeds the requested target. -/
theorem c3_counterexample :
    List.length initVocab = 99 ∧
    List.length (train initVocab ["α".data] 99 false).1 = 100 :=
  ⟨by decide, by decide⟩

/-- C3 (amended): after training, the table never shrinks, and its size is at
most `max initial_size target_size` plus the number of distinct corpus
characters that were absent from the initial table (those are added by
`_include_corpus_chars` outside the merge loop's size check, so the stated
`≤ target_size` bound holds only up to that correction). -/
theorem c3_size_bounds (vocab : Vocab) (corpus : List Str) (desired : Nat)
    (wl : Bool) (hnd : (dkeys vocab).Nodup) :
    vocab.length ≤ (train vocab corpus desired wl).1.length ∧
    (train vocab corpus desired wl).1.length ≤
      max vocab.length desired + (newCorpusChars vocab corpus.flatten).length := by
  have htrain : (train vocab corpus desired wl).1 =
      updateVocab (includeCorpusChars vocab corpus.flatten)
        (trainLoop (trainUnits corpus wl) desired desired vocab).1 := rfl
  rw [htrain]
  obtain ⟨E, hE1, _, hE3⟩ := trainLoop_shape (trainUnits corpus wl) desired desired vocab
  rw [hE1]
  constructor
  · calc vocab.length
        ≤ (includeCorpusChars vocab corpus.flatten).length :=
          length_le_includeCorpusChars _ vocab
      _ ≤ _ := length_le_updateVocab _ _
  · rw [updateVocab_append]
    have hmem : ∀ kv ∈ vocab, kv.1 ∈ dkeys (includeCorpusChars vocab corpus.flatten) := by
      intro kv hkv
      exact mem_dkeys_includeCorpusChars _ vocab kv.1 (List.mem_map.mpr ⟨kv, hkv, rfl⟩)
    have hinc := length_includeCorpusChars_le vocab corpus.flatten hnd
    calc (updateVocab (updateVocab (includeCorpusChars vocab corpus.flatten) vocab) E).length
        ≤ (updateVocab (includeCorpusChars vocab corpus.flatten) vocab).length + E.length :=
          length_updateVocab_le E _
      _ = (includeCorpusChars vocab corpus.flatten).length + E.length := by
          rw [length_updateVocab_of_mem vocab _ hmem]
      _ ≤ max vocab.length desired + (newCorpusChars vocab corpus.flatten).length := by
          omega

theorem c3_size_bounds_witness :
    (dkeys initVocab).Nodup ∧
    (List.length initVocab ≤ List.length (train initVocab ["ab".data] 99 false).1 ∧
      List.length (train initVocab ["ab".data] 99 false).1 ≤
        max (List.length initVocab) 99 +
          (newCorpusChars initVocab (["ab".data].flatten)).length) :=
  ⟨by decide, c3_size_bounds initVocab ["ab".data] 99 false (by decide)⟩

/-- C7: every rebuild of the ID mapping assigns the four special symbols
their fixed IDs (PAD=0, SOS=-1, EOS=-2, UNK=-999) in both directions; the
encoder is exactly the four specials followed by the learned (non-special)
symbols numbered 1, 2, 3, ... in table enumeration order, mirrored in the
decoder; and for a duplicate-free table the two directions are mutually
inverse, with every table symbol mapped (a bijection). -/
theorem c7_id_mapping (vocab : Vocab) (hnd : (dkeys vocab).Nodup) :
    (alookup (rebuildTokenDict vocab).1 PADs = some 0 ∧
     alookup (rebuildTokenDict vocab).1 SOSs = some (-1) ∧
     alookup (rebuildTokenDict vocab).1 EOSs = some (-2) ∧
     alookup (rebuildTokenDict vocab).1 UNKs = some (-999) ∧
     alookup (rebuildTokenDict vocab).2 0 = some PADs ∧
     alookup (rebuildTokenDict vocab).2 (-1) = some SOSs ∧
     alookup (rebuildTokenDict vocab).2 (-2) = some EOSs ∧
     alookup (rebuildTokenDict vocab).2 (-999) = some UNKs) ∧
    rebuildTokenDict vocab =
      (specialEnc ++ numberFrom 1 (dkeys vocab),
       specialDec ++ numberFromD 1 (dkeys vocab)) ∧
    (∀ s n, alookup (rebuildTokenDict vocab).1 s = some n ↔
      alookup (rebuildTokenDict vocab).2 n = some s) ∧
    (∀ s ∈ dkeys vocab, ∃ n, alookup (rebuildTokenDict vocab).1 s = some n ∧
      alookup (rebuildTokenDict vocab).2 n = some s) := by
  obtain ⟨hP, hU, hS, hE, hP', hU', hS', hE'⟩ := rebuild_specials vocab
  exact ⟨⟨hP, hS, hE, hU, hP', hS', hE', hU'⟩, rebuildTokenDict_eq vocab hnd,
    fun s n => rebuild_inverse vocab hnd s n,
    fun s hs => rebuild_mem_inv vocab hnd s hs⟩

theorem c7_id_mapping_witness :
    (dkeys initVocab).Nodup ∧
    alookup (rebuildTokenDict initVocab).1 PADs = some 0 :=
  ⟨by decide, (c7_id_mapping initVocab (by decide)).1.1⟩

/-! ### Padding -/

inductive PadError : Type
  | missingSpecial : PadError
  | capacity : PadError

/-- `pad(tokens, desired_length)`: look up the SOS/EOS/PAD IDs, raise
(`capacity`) when `len(tokens) + 2 >= desired_length`, otherwise insert the
SOS ID in front, append the EOS ID, and extend with PAD IDs once per element
of `range(desired_length - len(tokens))` computed after the two insertions. -/
def pad (enc : List (Str × Int)) (tokens : List Int) (desiredLength : Nat) :
    Except PadError (List Int) :=
  match alookup enc SOSs, alookup enc EOSs, alookup enc PADs with
  | some st, some et, some pt =>
    if desiredLength ≤ tokens.length + 2 then Except.error PadError.capacity
    else Except.ok (st :: (tokens ++ [et]) ++
      List.replicate (desiredLength - (tokens.length + 2)) pt)
  | _, _, _ => Except.error PadError.missingSpecial

/-- C5: with a rebuilt encoder dictionary, whenever
`len(tokens) + 2 < desired_length` the pad routine returns SOS ID (-1), then
the tokens in order, then the EOS ID (-2) immediately after them, then PAD
IDs (0), for a total length of exactly `desired_length`; whenever
`len(tokens) + 2 >= desired_length` it raises the capacity error instead of
truncating. -/
theorem c5_pad (vocab : Vocab) (tokens : List Int) (desiredLength : Nat) :
    (tokens.length + 2 < desiredLength →
      ∃ out, pad (rebuildTokenDict vocab).1 tokens desiredLength = Except.ok out ∧
        out = (-1) :: (tokens ++ [-2]) ++
          List.replicate (desiredLength - (tokens.length + 2)) 0 ∧
        out.length = desiredLength) ∧
    (desiredLength ≤ tokens.length + 2 →
      pad (rebuildTokenDict vocab).1 tokens desiredLength =
        Except.error PadError.capacity) := by
  obtain ⟨hP, hU, hS, hE, _, _, _, _⟩ := rebuild_specials vocab
  constructor
  · intro h
    refine ⟨_, ?_, rfl, ?_⟩
    · unfold pad
      rw [hS, hE, hP]
      show (if desiredLength ≤ tokens.length + 2 then Except.error PadError.capacity
        else Except.ok ((-1) :: (tokens ++ [-2]) ++
          List.replicate (desiredLength - (tokens.length + 2)) (0 : Int))) = _
      rw [if_neg (by omega)]
    · simp only [List.length_append, List.length_cons, List.length_replicate,
        List.length_nil]
      omega
  · intro h
    unfold pad
    rw [hS, hE, hP]
    show (if desiredLength ≤ tokens.length + 2 then Except.error PadError.capacity
      else Except.ok ((-1) :: (tokens ++ [-2]) ++
        List.replicate (desiredLength - (tokens.length + 2)) (0 : Int))) = _
    rw [if_pos h]

theorem c5_pad_witness :
    List.length ([5, 7] : List Int) + 2 < 6 ∧
    ∃ out, pad (rebuildTokenDict initVocab).1 [5, 7] 6 = Except.ok out ∧
      out = (-1) :: (([5, 7] : List Int) ++ [-2]) ++
        List.replicate (6 - (List.length ([5, 7] : List Int) + 2)) 0 ∧
      out.length = 6 :=
  ⟨by decide, (c5_pad initVocab [5, 7] 6).1 (by decide)⟩

/-! ### The three constructor modes -/

/-- The tokenizer state `__init__` leaves behind: the vocabulary and the two
token dictionaries (every constructor path ends in `_rebuild_token_dict`). -/
structure Tokenizer : Type where
  vocab : Vocab
  encoderDict : List (Str × Int)
  decoderDict : List (Int × Str)

/-- Package a vocabulary with its freshly rebuilt token dictionaries. -/
def rebuildT (v : Vocab) : Tokenizer :=
  ⟨v, (rebuildTokenDict v).1, (rebuildTokenDict v).2⟩

/-- Constructor mode 1 (unconfigured): `_init_vocab` then
`_rebuild_token_dict`. -/
def mkUnconfigured : Tokenizer := rebuildT initVocab

/-- Constructor mode 2 (pretrained vocabulary): `_init_vocab` then
`_update_vocab(ext)`, which merges the external table and rebuilds. -/
def mkPretrained (ext : Vocab) : Tokenizer := rebuildT (updateVocab initVocab ext)

/-- Constructor mode 3 (corpus plus vocab size): `_init_vocab` then
`train(corpus, size, word_level)`, whose final `_update_vocab` rebuilds. -/
def mkFromCorpus (corpus : List Str) (size : Nat) (wl : Bool) : Tokenizer :=
  rebuildT (train initVocab corpus size wl).1

/-- `encode` with its `if not self.encoder_dict: raise ValueError` guard. -/
def encodeT (t : Tokenizer) (text : Str) : Option (List Int) :=
  if t.encoderDict = [] then none else encode t.vocab t.encoderDict text

/-- `_decode_chunks` with its `if not self.decoder_dict: raise` guard
(`decode` joins the chunks). -/
def decodeT (t : Tokenizer) (tokens : List Int) : Option Str :=
  if t.decoderDict = [] then none else decode t.decoderDict tokens

theorem rebuild_enc_ne (v : Vocab) : (rebuildTokenDict v).1 ≠ [] := by
  intro h
  have hP := (rebuild_specials v).1
  rw [h] at hP
  simp at hP

theorem rebuild_dec_ne (v : Vocab) : (rebuildTokenDict v).2 ≠ [] := by
  intro h
  have hP := (rebuild_specials v).2.2.2.2.1
  rw [h] at hP
  simp at hP

/-- C10: after construction through any of the three modes — unconfigured,
pretrained vocabulary, or corpus plus vocab size — the encoder and decoder
dictionaries are built and non-empty (every path ends in
`_rebuild_token_dict`, which always writes the four special entries), so the
`cannot encode/decode without a dictionary` guard branches never fire: the
guarded entry points agree with the unguarded encode/decode cores on every
subsequent input. -/
theorem c10_dicts_built (ext : Vocab) (corpus : List Str) (size : Nat) (wl : Bool) :
    (mkUnconfigured.encoderDict ≠ [] ∧ mkUnconfigured.decoderDict ≠ [] ∧
      (∀ text, encodeT mkUnconfigured text =
        encode mkUnconfigured.vocab mkUnconfigured.encoderDict text) ∧
      (∀ tks, decodeT mkUnconfigured tks =
        decode mkUnconfigured.decoderDict tks)) ∧
    ((mkPretrained ext).encoderDict ≠ [] ∧ (mkPretrained ext).decoderDict ≠ [] ∧
      (∀ text, encodeT (mkPretrained ext) text =
        encode (mkPretrained ext).vocab (mkPretrained ext).encoderDict text) ∧
      (∀ tks, decodeT (mkPretrained ext) tks =
        decode (mkPretrained ext).decoderDict tks)) ∧
    ((mkFromCorpus corpus size wl).encoderDict ≠ [] ∧
      (mkFromCorpus corpus size wl).decoderDict ≠ [] ∧
      (∀ text, encodeT (mkFromCorpus corpus size wl) text =
        encode (mkFromCorpus corpus size wl).vocab
          (mkFromCorpus corpus size wl).encoderDict text) ∧
      (∀ tks, decodeT (mkFromCorpus corpus size wl) tks =
        decode (mkFromCorpus corpus size wl).decoderDict tks)) := by
  refine ⟨⟨rebuild_enc_ne initVocab, rebuild_dec_ne initVocab, ?_, ?_⟩,
    ⟨rebuild_enc_ne _, rebuild_dec_ne _, ?_, ?_⟩,
    ⟨rebuild_enc_ne _, rebuild_dec_ne _, ?_, ?_⟩⟩ <;>
    intro x <;> first
      | exact if_neg (rebuild_enc_ne _)
      | exact if_neg (rebuild_dec_ne _)
